import Mathlib

/-!
Quadcopter attitude kernel: the Madgwick AHRS filter and the motor pulse mapping.

Shallow embedding of `soft/main/utils/madgwick.cpp` and `soft/main/hal/motor.cpp`.

Scalars are an arbitrary field `α` together with a square-root function `sqrt : α → α`
(the `sqrt`/`sqrtf` of `<math.h>`); the theorems instantiate `α := ℝ` and
`sqrt := Real.sqrt`, i.e. they are statements over exact real arithmetic, not over
IEEE doubles.  The motor mapping truncates a `float` product to an integer, so there the
rounding of the product to binary32 is part of the model.  The classes `Quaternion`, `Vect` and `Matrix` are not part of the
translated sources; they are modelled from the specification (section 4.1).
-/

namespace Quadcopter

/-! ## Algebra primitives -/

/-- Modelled from the spec: the `Quaternion` class (utils/quaternion), four scalars
`(w, x, y, z)`; an owned value type with no identity beyond its components. -/
@[ext]
structure Quaternion (α : Type) where
  w : α
  x : α
  y : α
  z : α

/-- Modelled from the spec: `Vect(n)`, an ordered fixed-length sequence of scalars whose
index range is known at construction. -/
def Vect (α : Type) (n : Nat) : Type := Fin n → α

/-- Modelled from the spec: `Matrix(r,c)`, a dense `r × c` matrix indexed `(row, col)`. -/
def Matrix (α : Type) (r c : Nat) : Type := Fin r → Fin c → α

section Algebra

variable {α : Type} [Field α] [DecidableEq α]

/-- Modelled from the spec: indexed access `q(i)` of the missing `Quaternion` class,
`q(0)` the scalar part and `q(1), q(2), q(3)` the vector part. -/
def Quaternion.get (q : Quaternion α) (i : Nat) : α :=
  match i with
  | 0 => q.w
  | 1 => q.x
  | 2 => q.y
  | _ => q.z

/-- Modelled from the spec: the default constructor of the missing `Quaternion` class,
the identity orientation `(1,0,0,0)`. -/
def Quaternion.identity : Quaternion α := ⟨1, 0, 0, 0⟩

/-- Modelled from the spec: component-wise addition of the missing `Quaternion` class. -/
def Quaternion.add (p q : Quaternion α) : Quaternion α :=
  ⟨p.w + q.w, p.x + q.x, p.y + q.y, p.z + q.z⟩

/-- Modelled from the spec: component-wise subtraction of the missing `Quaternion` class. -/
def Quaternion.sub (p q : Quaternion α) : Quaternion α :=
  ⟨p.w - q.w, p.x - q.x, p.y - q.y, p.z - q.z⟩

/-- Modelled from the spec: the Hamilton product `p ⊗ q` of the missing `Quaternion`
class. -/
def Quaternion.mul (p q : Quaternion α) : Quaternion α :=
  ⟨p.w * q.w - p.x * q.x - p.y * q.y - p.z * q.z,
   p.w * q.x + p.x * q.w + p.y * q.z - p.z * q.y,
   p.w * q.y - p.x * q.z + p.y * q.w + p.z * q.x,
   p.w * q.z + p.x * q.y - p.y * q.x + p.z * q.w⟩

/-- Modelled from the spec: multiplication of a quaternion by a scalar (`q * s`) of the
missing `Quaternion` class. -/
def Quaternion.scale (q : Quaternion α) (s : α) : Quaternion α :=
  ⟨q.w * s, q.x * s, q.y * s, q.z * s⟩

instance : Add (Quaternion α) := ⟨Quaternion.add⟩
instance : Sub (Quaternion α) := ⟨Quaternion.sub⟩
instance : Mul (Quaternion α) := ⟨Quaternion.mul⟩

/-- Modelled from the spec: `conjugate()` of the missing `Quaternion` class negates the
vector part. -/
def Quaternion.conjugate (q : Quaternion α) : Quaternion α :=
  ⟨q.w, -q.x, -q.y, -q.z⟩

/-- Sum of the squares of the four components (the radicand of `norm()`). -/
def Quaternion.normSq (q : Quaternion α) : α :=
  q.w * q.w + q.x * q.x + q.y * q.y + q.z * q.z

/-- Modelled from the spec: `norm()` of the missing `Quaternion` class, the Euclidean
length of all four components. -/
def Quaternion.norm (sqrt : α → α) (q : Quaternion α) : α :=
  sqrt q.normSq

/-- Modelled from the spec: `normalize()` of the missing `Quaternion` class divides every
component by the norm; dividing by a zero norm is undefined (`none`). -/
def Quaternion.normalize (sqrt : α → α) (q : Quaternion α) : Option (Quaternion α) :=
  if q.norm sqrt = 0 then none
  else some ⟨q.w / q.norm sqrt, q.x / q.norm sqrt, q.y / q.norm sqrt, q.z / q.norm sqrt⟩

/-- Modelled from the spec: the constructor `Vect(n)` of the missing `Vect` class, taken
to be zero-filled. -/
def Vect.new (n : Nat) : Vect α n := fun _ => 0

/-- Modelled from the spec: `set(i, value)` of the missing `Vect` class. -/
def Vect.set {n : Nat} (v : Vect α n) (i : Fin n) (a : α) : Vect α n :=
  fun k => if k = i then a else v k

/-- Modelled from the spec: the constructor `Matrix(r, c)` of the missing `Matrix` class,
taken to be zero-filled. -/
def Matrix.new (r c : Nat) : Matrix α r c := fun _ _ => 0

/-- Modelled from the spec: `set(row, col, value)` of the missing `Matrix` class. -/
def Matrix.set {r c : Nat} (M : Matrix α r c) (i : Fin r) (j : Fin c) (a : α) :
    Matrix α r c :=
  fun k l => if k = i ∧ l = j then a else M k l

/-- Modelled from the spec: `transpose()` of the missing `Matrix` class. -/
def Matrix.transpose {r c : Nat} (M : Matrix α r c) : Matrix α c r :=
  fun j i => M i j

/-- Modelled from the spec: right-multiplication of a matrix by a `Vect` (the missing
`Matrix` class), row `i` of the result being `Σ_j M(i,j) * v(j)`. -/
def Matrix.mulVec {r c : Nat} (M : Matrix α r c) (v : Vect α c) : Vect α r :=
  fun i => (List.ofFn (fun j => M i j * v j)).sum

/-- Modelled from the spec: the constructor of the missing `Quaternion` class that
reinterprets a 4-element `Vect` as a quaternion-shaped value. -/
def Quaternion.ofVect (v : Vect α 4) : Quaternion α :=
  ⟨v 0, v 1, v 2, v 3⟩

end Algebra

/-! ## The AHRS filter (`utils/madgwick.cpp`) -/

/-- State of the filter: the orientation quaternion `_q` and the two construction-time
constants `_period` and `_beta`. -/
@[ext]
structure Madgwick (α : Type) where
  q : Quaternion α
  period : α
  beta : α

section Filter

variable {α : Type} [Field α] [DecidableEq α]

/-- The constructor `Madgwick::Madgwick(period, gain)`. -/
def Madgwick.new (period gain : α) : Madgwick α :=
  { q := Quaternion.identity, period := period, beta := gain }

/-- The objective vector, `Madgwick::compute_F`. -/
def Madgwick.compute_F (m : Madgwick α) (acc mag B : Quaternion α) : Vect α 6 :=
  let F : Vect α 6 := Vect.new 6
  let F := F.set 0 (2 * (m.q.get 1 * m.q.get 3 - m.q.get 0 * m.q.get 2) - acc.get 1)
  let F := F.set 1 (2 * (m.q.get 0 * m.q.get 1 + m.q.get 2 * m.q.get 3) - acc.get 2)
  let F := F.set 2 (2 * (1 / 2 - m.q.get 1 * m.q.get 1 - m.q.get 2 * m.q.get 2) - acc.get 3)
  let F := F.set 3 (2 * B.get 1 * (1 / 2 - m.q.get 2 * m.q.get 2 - m.q.get 3 * m.q.get 3)
    + 2 * B.get 3 * (m.q.get 1 * m.q.get 3 - m.q.get 0 * m.q.get 2) - mag.get 1)
  let F := F.set 4 (2 * B.get 1 * (m.q.get 1 * m.q.get 2 - m.q.get 0 * m.q.get 3)
    + 2 * B.get 3 * (m.q.get 0 * m.q.get 1 + m.q.get 2 * m.q.get 3) - mag.get 2)
  let F := F.set 5 (2 * B.get 1 * (m.q.get 0 * m.q.get 2 + m.q.get 1 * m.q.get 3)
    + 2 * B.get 3 * (1 / 2 - m.q.get 1 * m.q.get 1 - m.q.get 2 * m.q.get 2) - mag.get 3)
  F

/-- The Jacobian as the code builds it, `Madgwick::compute_J`. -/
def Madgwick.compute_J (m : Madgwick α) (B : Quaternion α) : Matrix α 6 4 :=
  let J : Matrix α 6 4 := Matrix.new 6 4
  let J := J.set 0 0 (-2 * m.q.get 2)
  let J := J.set 0 1 (2 * m.q.get 3)
  let J := J.set 0 2 (-2 * m.q.get 0)
  let J := J.set 0 3 (2 * m.q.get 1)
  let J := J.set 1 0 (2 * m.q.get 1)
  let J := J.set 1 1 (2 * m.q.get 0)
  let J := J.set 1 2 (2 * m.q.get 3)
  let J := J.set 1 3 (2 * m.q.get 2)
  let J := J.set 2 0 0
  let J := J.set 2 1 (-4 * m.q.get 1)
  let J := J.set 2 2 (2 * m.q.get 3)
  let J := J.set 2 3 (2 * m.q.get 2)
  let J := J.set 3 0 (-2 * B.get 3 * m.q.get 2)
  let J := J.set 3 1 (2 * B.get 3 * m.q.get 3)
  let J := J.set 3 2 (-4 * B.get 1 * m.q.get 2 - 2 * B.get 3 * m.q.get 0)
  let J := J.set 3 3 (-4 * B.get 1 * m.q.get 3 + 2 * B.get 3 * m.q.get 1)
  let J := J.set 4 0 (-2 * B.get 1 * m.q.get 3 + 2 * B.get 3 * m.q.get 1)
  let J := J.set 4 1 (2 * B.get 1 * m.q.get 2 + 2 * B.get 3 * m.q.get 0)
  let J := J.set 4 2 (2 * B.get 1 * m.q.get 1 + 2 * B.get 3 * m.q.get 3)
  let J := J.set 4 3 (-2 * B.get 1 * m.q.get 0 + 2 * B.get 3 * m.q.get 2)
  let J := J.set 5 0 (2 * B.get 1 * m.q.get 2)
  let J := J.set 5 1 (2 * B.get 1 * m.q.get 3 - 4 * B.get 3 * m.q.get 1)
  let J := J.set 5 2 (2 * B.get 1 * m.q.get 0 - 4 * B.get 3 * m.q.get 2)
  let J := J.set 5 3 (2 * B.get 1 * m.q.get 1)
  J

/-- One filter step, `Madgwick::update`.  The result is `none` when one of the four
`normalize()` calls is applied to a quaternion of zero norm. -/
def Madgwick.update (sqrt : α → α) (m : Madgwick α)
    (gx gy gz ax ay az mx my mz : α) : Option (Madgwick α) :=
  let gyr : Quaternion α := ⟨0, gx, gy, gz⟩
  let acc : Quaternion α := ⟨0, ax, ay, az⟩
  let mag : Quaternion α := ⟨0, mx, my, mz⟩
  if acc.norm sqrt ≠ 0 ∧ mag.norm sqrt ≠ 0 then
    (acc.normalize sqrt).bind fun acc =>
    (mag.normalize sqrt).bind fun mag =>
      let H := m.q * (mag * m.q.conjugate)
      let B : Quaternion α := ⟨0, sqrt (H.get 1 * H.get 1 + H.get 2 * H.get 2), 0, H.get 3⟩
      let F := m.compute_F acc mag B
      let J := m.compute_J B
      ((Quaternion.ofVect (J.transpose.mulVec F)).normalize sqrt).bind fun step =>
      ((m.q + ((m.q * gyr).scale (1 / 2) - step.scale m.beta).scale m.period).normalize
          sqrt).bind fun q =>
        some { m with q := q }
  else
    some m

/-- The local `B` of `Madgwick::update`: the reference direction of the magnetic field
built from the (normalized) magnetometer quaternion. -/
def Madgwick.reference (sqrt : α → α) (m : Madgwick α) (mag : Quaternion α) : Quaternion α :=
  let H := m.q * (mag * m.q.conjugate)
  ⟨0, sqrt (H.get 1 * H.get 1 + H.get 2 * H.get 2), 0, H.get 3⟩

/-- The local `step` of `Madgwick::update` before it is normalized: `transpose(J) * F`
for the (normalized) accelerometer and magnetometer quaternions. -/
def Madgwick.gradient (sqrt : α → α) (m : Madgwick α) (acc mag : Quaternion α) :
    Quaternion α :=
  let B := m.reference sqrt mag
  Quaternion.ofVect ((m.compute_J B).transpose.mulVec (m.compute_F acc mag B))

/-- The six `set` calls of `Madgwick::compute_F` applied to a vector `F0` of arbitrary
content, standing for whatever the constructor `Vect(6)` leaves in the cells. -/
def Madgwick.compute_F_on (m : Madgwick α) (acc mag B : Quaternion α) (F0 : Vect α 6) :
    Vect α 6 :=
  let F : Vect α 6 := F0
  let F := F.set 0 (2 * (m.q.get 1 * m.q.get 3 - m.q.get 0 * m.q.get 2) - acc.get 1)
  let F := F.set 1 (2 * (m.q.get 0 * m.q.get 1 + m.q.get 2 * m.q.get 3) - acc.get 2)
  let F := F.set 2 (2 * (1 / 2 - m.q.get 1 * m.q.get 1 - m.q.get 2 * m.q.get 2) - acc.get 3)
  let F := F.set 3 (2 * B.get 1 * (1 / 2 - m.q.get 2 * m.q.get 2 - m.q.get 3 * m.q.get 3)
    + 2 * B.get 3 * (m.q.get 1 * m.q.get 3 - m.q.get 0 * m.q.get 2) - mag.get 1)
  let F := F.set 4 (2 * B.get 1 * (m.q.get 1 * m.q.get 2 - m.q.get 0 * m.q.get 3)
    + 2 * B.get 3 * (m.q.get 0 * m.q.get 1 + m.q.get 2 * m.q.get 3) - mag.get 2)
  let F := F.set 5 (2 * B.get 1 * (m.q.get 0 * m.q.get 2 + m.q.get 1 * m.q.get 3)
    + 2 * B.get 3 * (1 / 2 - m.q.get 1 * m.q.get 1 - m.q.get 2 * m.q.get 2) - mag.get 3)
  F

/-- The twenty-four `set` calls of `Madgwick::compute_J` applied to a matrix `J0` of
arbitrary content, standing for whatever the constructor `Matrix(6, 4)` leaves in the
cells. -/
def Madgwick.compute_J_on (m : Madgwick α) (B : Quaternion α) (J0 : Matrix α 6 4) :
    Matrix α 6 4 :=
  let J : Matrix α 6 4 := J0
  let J := J.set 0 0 (-2 * m.q.get 2)
  let J := J.set 0 1 (2 * m.q.get 3)
  let J := J.set 0 2 (-2 * m.q.get 0)
  let J := J.set 0 3 (2 * m.q.get 1)
  let J := J.set 1 0 (2 * m.q.get 1)
  let J := J.set 1 1 (2 * m.q.get 0)
  let J := J.set 1 2 (2 * m.q.get 3)
  let J := J.set 1 3 (2 * m.q.get 2)
  let J := J.set 2 0 0
  let J := J.set 2 1 (-4 * m.q.get 1)
  let J := J.set 2 2 (2 * m.q.get 3)
  let J := J.set 2 3 (2 * m.q.get 2)
  let J := J.set 3 0 (-2 * B.get 3 * m.q.get 2)
  let J := J.set 3 1 (2 * B.get 3 * m.q.get 3)
  let J := J.set 3 2 (-4 * B.get 1 * m.q.get 2 - 2 * B.get 3 * m.q.get 0)
  let J := J.set 3 3 (-4 * B.get 1 * m.q.get 3 + 2 * B.get 3 * m.q.get 1)
  let J := J.set 4 0 (-2 * B.get 1 * m.q.get 3 + 2 * B.get 3 * m.q.get 1)
  let J := J.set 4 1 (2 * B.get 1 * m.q.get 2 + 2 * B.get 3 * m.q.get 0)
  let J := J.set 4 2 (2 * B.get 1 * m.q.get 1 + 2 * B.get 3 * m.q.get 3)
  let J := J.set 4 3 (-2 * B.get 1 * m.q.get 0 + 2 * B.get 3 * m.q.get 2)
  let J := J.set 5 0 (2 * B.get 1 * m.q.get 2)
  let J := J.set 5 1 (2 * B.get 1 * m.q.get 3 - 4 * B.get 3 * m.q.get 1)
  let J := J.set 5 2 (2 * B.get 1 * m.q.get 0 - 4 * B.get 3 * m.q.get 2)
  let J := J.set 5 3 (2 * B.get 1 * m.q.get 1)
  J

/-- The vector rotation query, `Madgwick::rotate`; the triple is what is written through
`x_r`, `y_r`, `z_r`. -/
def Madgwick.rotate (m : Madgwick α) (x y z : α) : α × α × α :=
  let v : Quaternion α := ⟨0, x, y, z⟩
  let v_r := m.q * v * m.q.conjugate
  (v_r.get 1, v_r.get 2, v_r.get 3)

/-- The filter after `n` consecutive calls of `Madgwick::update` with the same sample. -/
def Madgwick.updateN (sqrt : α → α) (gx gy gz ax ay az mx my mz : α) :
    Nat → Madgwick α → Option (Madgwick α)
  | 0, m => some m
  | n + 1, m =>
    (m.update sqrt gx gy gz ax ay az mx my mz).bind
      (Madgwick.updateN sqrt gx gy gz ax ay az mx my mz n)

end Filter

/-! ## The motor abstraction (`hal/motor.cpp`) -/

/-- The constant `PULSE_MIN_VALUE_us` of `hal/motor.cpp`. -/
def PULSE_MIN_VALUE_us : Int := 1000

/-- The constant `PULSE_MAX_VALUE_us` of `hal/motor.cpp`. -/
def PULSE_MAX_VALUE_us : Int := 2000

/-- Rounding of a rational to the nearest integer, a tie going to the even neighbour (the
rounding direction of IEEE 754 arithmetic). -/
def roundHalfEven (x : ℚ) : Int :=
  if x - ⌊x⌋ < 1 / 2 then ⌊x⌋
  else if 1 / 2 < x - ⌊x⌋ then ⌊x⌋ + 1
  else if ⌊x⌋ % 2 = 0 then ⌊x⌋
  else ⌊x⌋ + 1

/-- Spacing of the binary32 (`float`) values around `x`: `2 ^ (e - 23)` when
`2 ^ e ≤ |x| < 2 ^ (e + 1)`, and `2 ^ (-149)` below the smallest normal value `2 ^ (-126)`. -/
def ulp32 (x : ℚ) : ℚ :=
  (2 : ℚ) ^ (max (Int.log 2 |x|) (-126) - 23)

/-- The `float` a binary32 operation returns when its exact result is `x`: the nearest
multiple of the spacing, ties to even; `none` when that is beyond the largest finite value
(the operation returns an infinity). -/
def roundF32 (x : ℚ) : Option ℚ :=
  let y : ℚ := roundHalfEven (x / ulp32 x) * ulp32 x
  if |y| < 2 ^ 128 then some y else none

/-- Truncation toward zero, the integral value a floating-to-integer cast keeps. -/
def trunc (f : ℚ) : Int :=
  if 0 ≤ f then ⌊f⌋ else ⌈f⌉

/-- The cast `(uint16_t) f` of a floating value: the truncated value when it is
representable in 16 bits, undefined (`none`) otherwise. -/
def toUInt16 (f : ℚ) : Option Int :=
  if 0 ≤ trunc f ∧ trunc f < 65536 then some (trunc f) else none

/-- Modelled from the spec: the missing `Pulse` class (hal/pulse), reduced to the pulse
width in microseconds last handed to `Pulse::set`. -/
structure Pulse where
  width : Int
deriving DecidableEq

/-- Modelled from the spec: `Pulse::set(width)` of the missing `Pulse` class. -/
def Pulse.set (_p : Pulse) (width : Int) : Pulse :=
  { width := width }

/-- A motor, owner of one `Pulse` (`Motor::_pulse`). -/
structure Motor where
  pulse : Pulse
deriving DecidableEq

/-- The function `Motor::set_speed`.  `speed` is the value of the `float` argument; the
difference of the two constants is converted to `float`, the product of the two `float`s
is rounded to binary32 and then cast to `uint16_t`, the sum is formed in `int` and stored
into a `uint16_t`. -/
def Motor.set_speed (m : Motor) (speed : ℚ) : Option Motor :=
  (roundF32 ((PULSE_MAX_VALUE_us - PULSE_MIN_VALUE_us : Int) : ℚ)).bind fun range =>
  (roundF32 (speed * range)).bind fun product =>
  (toUInt16 product).map fun w =>
    let width : Int := (w + PULSE_MIN_VALUE_us) % 65536
    { m with pulse := m.pulse.set width }

/-- The function `Motor::set_zero`. -/
def Motor.set_zero (m : Motor) : Motor :=
  { m with pulse := m.pulse.set PULSE_MIN_VALUE_us }

/-! ## Theorems -/

section Basic

@[simp]
theorem Quaternion.add_def {α : Type} [Field α] (p q : Quaternion α) :
    p + q = ⟨p.w + q.w, p.x + q.x, p.y + q.y, p.z + q.z⟩ := rfl

@[simp]
theorem Quaternion.sub_def {α : Type} [Field α] (p q : Quaternion α) :
    p - q = ⟨p.w - q.w, p.x - q.x, p.y - q.y, p.z - q.z⟩ := rfl

@[simp]
theorem Quaternion.mul_def {α : Type} [Field α] (p q : Quaternion α) :
    p * q = ⟨p.w * q.w - p.x * q.x - p.y * q.y - p.z * q.z,
             p.w * q.x + p.x * q.w + p.y * q.z - p.z * q.y,
             p.w * q.y - p.x * q.z + p.y * q.w + p.z * q.x,
             p.w * q.z + p.x * q.y - p.y * q.x + p.z * q.w⟩ := rfl

@[simp]
theorem Quaternion.get_zero {α : Type} (q : Quaternion α) : q.get 0 = q.w := rfl
@[simp]
theorem Quaternion.get_one {α : Type} (q : Quaternion α) : q.get 1 = q.x := rfl
@[simp]
theorem Quaternion.get_two {α : Type} (q : Quaternion α) : q.get 2 = q.y := rfl
@[simp]
theorem Quaternion.get_three {α : Type} (q : Quaternion α) : q.get 3 = q.z := rfl

end Basic

/-- C1. Degenerate-input no-op: with accelerometer `(0,0,0)` (any magnetometer) or with
magnetometer `(0,0,0)` (any accelerometer), `Madgwick::update` returns the filter state
it was called on, whatever the state and the gyro reading; the gyro reading is not
integrated. -/
theorem update_degenerate_noop (m : Madgwick ℝ) (gx gy gz ax ay az mx my mz : ℝ) :
    m.update Real.sqrt gx gy gz 0 0 0 mx my mz = some m
      ∧ m.update Real.sqrt gx gy gz ax ay az 0 0 0 = some m := by
  constructor <;> simp [Madgwick.update, Quaternion.norm, Quaternion.normSq]

/-- Unit norm over the reals means the squares of the components sum to one. -/
theorem Quaternion.normSq_of_norm_eq_one (q : Quaternion ℝ) (h : q.norm Real.sqrt = 1) :
    q.w * q.w + q.x * q.x + q.y * q.y + q.z * q.z = 1 := by
  have h1 : Real.sqrt q.normSq = 1 := h
  have h2 : q.normSq = 1 := by
    have := (Real.sqrt_eq_one).mp h1
    exact this
  simpa [Quaternion.normSq] using h2

/-- C3. Rotation identity: with the identity orientation `(1,0,0,0)`, `Madgwick::rotate`
writes back exactly the vector it was given. -/
theorem rotate_identity (period beta x y z : ℝ) :
    (Madgwick.mk Quaternion.identity period beta).rotate x y z = (x, y, z) := by
  simp [Madgwick.rotate, Quaternion.identity, Quaternion.conjugate]

/-- C4. Rotation law for a unit orientation: the quaternion `q * (0,x,y,z) * conjugate(q)`
formed by `Madgwick::rotate` has scalar part `0`, and the vector written back has the
same squared Euclidean length as `(x,y,z)`. -/
theorem rotate_unit_preserves_length (m : Madgwick ℝ) (x y z : ℝ)
    (hq : m.q.norm Real.sqrt = 1) :
    (m.q * (⟨0, x, y, z⟩ : Quaternion ℝ) * m.q.conjugate).w = 0
      ∧ (m.rotate x y z).1 ^ 2 + (m.rotate x y z).2.1 ^ 2 + (m.rotate x y z).2.2 ^ 2
          = x ^ 2 + y ^ 2 + z ^ 2 := by
  have h := Quaternion.normSq_of_norm_eq_one m.q hq
  obtain ⟨⟨w, a, b, c⟩, T, β⟩ := m
  simp only [Madgwick.rotate, Quaternion.mul_def, Quaternion.conjugate,
    Quaternion.get_one, Quaternion.get_two, Quaternion.get_three] at h ⊢
  constructor
  · ring
  · have h2 : (w * w + a * a + b * b + c * c) ^ 2 = 1 := by rw [h]; norm_num
    linear_combination (x ^ 2 + y ^ 2 + z ^ 2) * h2

/-- Witness of C4 at the unit orientation `(0,1,0,0)`, a half turn about the x axis. -/
theorem rotate_unit_preserves_length_witness :
    ((⟨0, 1, 0, 0⟩ : Quaternion ℝ) * (⟨0, 1, 2, 3⟩ : Quaternion ℝ)
        * (⟨0, 1, 0, 0⟩ : Quaternion ℝ).conjugate).w = 0
      ∧ ((Madgwick.mk (⟨0, 1, 0, 0⟩ : Quaternion ℝ) 1 0).rotate 1 2 3).1 ^ 2
          + ((Madgwick.mk (⟨0, 1, 0, 0⟩ : Quaternion ℝ) 1 0).rotate 1 2 3).2.1 ^ 2
          + ((Madgwick.mk (⟨0, 1, 0, 0⟩ : Quaternion ℝ) 1 0).rotate 1 2 3).2.2 ^ 2
          = (1 : ℝ) ^ 2 + 2 ^ 2 + 3 ^ 2 :=
  rotate_unit_preserves_length (Madgwick.mk ⟨0, 1, 0, 0⟩ 1 0) 1 2 3
    (by simp [Quaternion.norm, Quaternion.normSq])

/-- The six cells of the objective vector, read off `Madgwick::compute_F`. -/
theorem compute_F_entries {α : Type} [Field α] [DecidableEq α]
    (m : Madgwick α) (acc mag B : Quaternion α) :
    m.compute_F acc mag B 0 = 2 * (m.q.x * m.q.z - m.q.w * m.q.y) - acc.x
    ∧ m.compute_F acc mag B 1 = 2 * (m.q.w * m.q.x + m.q.y * m.q.z) - acc.y
    ∧ m.compute_F acc mag B 2 = 2 * (1 / 2 - m.q.x * m.q.x - m.q.y * m.q.y) - acc.z
    ∧ m.compute_F acc mag B 3 = 2 * B.x * (1 / 2 - m.q.y * m.q.y - m.q.z * m.q.z)
          + 2 * B.z * (m.q.x * m.q.z - m.q.w * m.q.y) - mag.x
    ∧ m.compute_F acc mag B 4 = 2 * B.x * (m.q.x * m.q.y - m.q.w * m.q.z)
          + 2 * B.z * (m.q.w * m.q.x + m.q.y * m.q.z) - mag.y
    ∧ m.compute_F acc mag B 5 = 2 * B.x * (m.q.w * m.q.y + m.q.x * m.q.z)
          + 2 * B.z * (1 / 2 - m.q.x * m.q.x - m.q.y * m.q.y) - mag.z :=
  ⟨rfl, rfl, rfl, rfl, rfl, rfl⟩

/-- The twenty-four cells of the Jacobian, read off `Madgwick::compute_J`. -/
theorem compute_J_entries {α : Type} [Field α] [DecidableEq α]
    (m : Madgwick α) (B : Quaternion α) :
    (m.compute_J B 0 0 = -2 * m.q.y ∧ m.compute_J B 0 1 = 2 * m.q.z
      ∧ m.compute_J B 0 2 = -2 * m.q.w ∧ m.compute_J B 0 3 = 2 * m.q.x)
    ∧ (m.compute_J B 1 0 = 2 * m.q.x ∧ m.compute_J B 1 1 = 2 * m.q.w
      ∧ m.compute_J B 1 2 = 2 * m.q.z ∧ m.compute_J B 1 3 = 2 * m.q.y)
    ∧ (m.compute_J B 2 0 = 0 ∧ m.compute_J B 2 1 = -4 * m.q.x
      ∧ m.compute_J B 2 2 = 2 * m.q.z ∧ m.compute_J B 2 3 = 2 * m.q.y)
    ∧ (m.compute_J B 3 0 = -2 * B.z * m.q.y ∧ m.compute_J B 3 1 = 2 * B.z * m.q.z
      ∧ m.compute_J B 3 2 = -4 * B.x * m.q.y - 2 * B.z * m.q.w
      ∧ m.compute_J B 3 3 = -4 * B.x * m.q.z + 2 * B.z * m.q.x)
    ∧ (m.compute_J B 4 0 = -2 * B.x * m.q.z + 2 * B.z * m.q.x
      ∧ m.compute_J B 4 1 = 2 * B.x * m.q.y + 2 * B.z * m.q.w
      ∧ m.compute_J B 4 2 = 2 * B.x * m.q.x + 2 * B.z * m.q.z
      ∧ m.compute_J B 4 3 = -2 * B.x * m.q.w + 2 * B.z * m.q.y)
    ∧ (m.compute_J B 5 0 = 2 * B.x * m.q.y
      ∧ m.compute_J B 5 1 = 2 * B.x * m.q.z - 4 * B.z * m.q.x
      ∧ m.compute_J B 5 2 = 2 * B.x * m.q.w - 4 * B.z * m.q.y
      ∧ m.compute_J B 5 3 = 2 * B.x * m.q.x) :=
  ⟨⟨rfl, rfl, rfl, rfl⟩, ⟨rfl, rfl, rfl, rfl⟩, ⟨rfl, rfl, rfl, rfl⟩, ⟨rfl, rfl, rfl, rfl⟩,
    ⟨rfl, rfl, rfl, rfl⟩, ⟨rfl, rfl, rfl, rfl⟩⟩

/-- Cell `j` of `transpose(J) * F` for a 6x4 matrix `J`. -/
theorem transpose_mulVec_apply {α : Type} [Field α] [DecidableEq α]
    (J : Matrix α 6 4) (F : Vect α 6) (j : Fin 4) :
    J.transpose.mulVec F j
      = J 0 j * F 0 + J 1 j * F 1 + J 2 j * F 2 + J 3 j * F 3 + J 4 j * F 4 + J 5 j * F 5 := by
  simp [Matrix.mulVec, Matrix.transpose, List.ofFn_succ, Fin.succ]
  ring

/-- The `normalize()` model is undefined exactly on quaternions of zero norm. -/
theorem Quaternion.normalize_eq_none_iff {α : Type} [Field α] [DecidableEq α]
    (sqrt : α → α) (q : Quaternion α) :
    q.normalize sqrt = none ↔ q.norm sqrt = 0 := by
  unfold Quaternion.normalize
  split_ifs with h <;> simp [h]

/-- In the non-degenerate branch `Madgwick::update` normalizes the correction step
`transpose(J) * F`, then the integrated quaternion, and stores the latter. -/
theorem update_of_normalize {α : Type} [Field α] [DecidableEq α] (sqrt : α → α)
    (m : Madgwick α) (gx gy gz ax ay az mx my mz : α) (a b : Quaternion α)
    (ha : (⟨0, ax, ay, az⟩ : Quaternion α).normalize sqrt = some a)
    (hb : (⟨0, mx, my, mz⟩ : Quaternion α).normalize sqrt = some b) :
    m.update sqrt gx gy gz ax ay az mx my mz
      = ((m.gradient sqrt a b).normalize sqrt).bind fun step =>
          ((m.q + ((m.q * ⟨0, gx, gy, gz⟩).scale (1 / 2) - step.scale m.beta).scale
              m.period).normalize sqrt).bind fun q => some { m with q := q } := by
  have hna : (⟨0, ax, ay, az⟩ : Quaternion α).norm sqrt ≠ 0 := by
    intro h
    rw [(Quaternion.normalize_eq_none_iff sqrt _).mpr h] at ha
    exact Option.noConfusion ha
  have hnb : (⟨0, mx, my, mz⟩ : Quaternion α).norm sqrt ≠ 0 := by
    intro h
    rw [(Quaternion.normalize_eq_none_iff sqrt _).mpr h] at hb
    exact Option.noConfusion hb
  unfold Madgwick.update
  simp only [hna, hnb, ne_eq, not_false_eq_true, and_self, if_true, ha, hb, Option.some_bind]
  rfl

/-- With gain `0` and a correction step that can be normalized, `Madgwick::update` is
pure gyro integration: it stores `normalize(q + 0.5 * period * (q * gyr))`. -/
theorem update_gain_zero_of_step (m : Madgwick ℝ) (gx gy gz ax ay az mx my mz : ℝ)
    (a b s : Quaternion ℝ) (hβ : m.beta = 0)
    (ha : (⟨0, ax, ay, az⟩ : Quaternion ℝ).normalize Real.sqrt = some a)
    (hb : (⟨0, mx, my, mz⟩ : Quaternion ℝ).normalize Real.sqrt = some b)
    (hs : (m.gradient Real.sqrt a b).normalize Real.sqrt = some s) :
    m.update Real.sqrt gx gy gz ax ay az mx my mz
      = ((m.q + ((m.q * ⟨0, gx, gy, gz⟩).scale (1 / 2)).scale m.period).normalize
          Real.sqrt).map fun q => { m with q := q } := by
  rw [update_of_normalize Real.sqrt m gx gy gz ax ay az mx my mz a b ha hb, hs,
    Option.some_bind]
  have h0 : (m.q * ⟨0, gx, gy, gz⟩).scale (1 / 2) - s.scale m.beta
      = (m.q * ⟨0, gx, gy, gz⟩).scale (1 / 2) := by
    rw [hβ]
    ext <;> simp [Quaternion.scale]
  rw [h0]
  generalize (m.q + ((m.q * ⟨0, gx, gy, gz⟩).scale (1 / 2)).scale m.period).normalize
    Real.sqrt = o
  cases o <;> rfl

/-- The radicand of the norm is never negative over the reals. -/
theorem Quaternion.normSq_nonneg (q : Quaternion ℝ) : 0 ≤ q.normSq := by
  unfold Quaternion.normSq
  nlinarith [mul_self_nonneg q.w, mul_self_nonneg q.x, mul_self_nonneg q.y,
    mul_self_nonneg q.z]

/-- Whatever `normalize()` returns has norm one. -/
theorem Quaternion.norm_of_normalize (q r : Quaternion ℝ)
    (h : q.normalize Real.sqrt = some r) : r.norm Real.sqrt = 1 := by
  unfold Quaternion.normalize at h
  split_ifs at h with hn
  have hr : r = ⟨q.w / q.norm Real.sqrt, q.x / q.norm Real.sqrt, q.y / q.norm Real.sqrt,
      q.z / q.norm Real.sqrt⟩ := (Option.some.inj h).symm
  have hsq : q.norm Real.sqrt * q.norm Real.sqrt = q.normSq :=
    Real.mul_self_sqrt q.normSq_nonneg
  have hone : r.normSq = 1 := by
    rw [hr]
    simp only [Quaternion.normSq]
    have : q.w / q.norm Real.sqrt * (q.w / q.norm Real.sqrt)
        + q.x / q.norm Real.sqrt * (q.x / q.norm Real.sqrt)
        + q.y / q.norm Real.sqrt * (q.y / q.norm Real.sqrt)
        + q.z / q.norm Real.sqrt * (q.z / q.norm Real.sqrt)
        = q.normSq / (q.norm Real.sqrt * q.norm Real.sqrt) := by
      simp only [Quaternion.normSq]
      field_simp
    rw [this, hsq]
    have hne : q.normSq ≠ 0 := by
      intro h0
      apply hn
      simp [Quaternion.norm, h0]
    exact div_self hne
  simp [Quaternion.norm, hone]

/-- Whenever `Madgwick::update` takes the non-degenerate branch and every `normalize()`
in it is defined, the stored orientation has norm one. -/
theorem update_norm_of_some (m r : Madgwick ℝ) (gx gy gz ax ay az mx my mz : ℝ)
    (hacc : (⟨0, ax, ay, az⟩ : Quaternion ℝ).norm Real.sqrt ≠ 0)
    (hmag : (⟨0, mx, my, mz⟩ : Quaternion ℝ).norm Real.sqrt ≠ 0)
    (h : m.update Real.sqrt gx gy gz ax ay az mx my mz = some r) :
    r.q.norm Real.sqrt = 1 := by
  unfold Madgwick.update at h
  simp only [hacc, hmag, ne_eq, not_false_eq_true, and_self, if_true, Option.bind_eq_some] at h
  obtain ⟨a, -, b, -, s, -, q, hq, hr⟩ := h
  have hrq : r.q = q := by
    rw [← Option.some.inj hr]
  rw [hrq]
  exact Quaternion.norm_of_normalize _ q hq

/-- Scaling a pure vector by `k > 0` scales its norm by `k`. -/
theorem Quaternion.norm_vec_scale (k a b c : ℝ) (hk : 0 < k) :
    (⟨0, k * a, k * b, k * c⟩ : Quaternion ℝ).norm Real.sqrt
      = k * (⟨0, a, b, c⟩ : Quaternion ℝ).norm Real.sqrt := by
  simp only [Quaternion.norm, Quaternion.normSq]
  have h : (0 : ℝ) * 0 + k * a * (k * a) + k * b * (k * b) + k * c * (k * c)
      = k * k * (0 * 0 + a * a + b * b + c * c) := by ring
  rw [h, Real.sqrt_mul (mul_self_nonneg k), Real.sqrt_mul_self hk.le]

/-- Scaling a pure vector by `k > 0` does not change what `normalize()` makes of it. -/
theorem Quaternion.normalize_vec_scale (k a b c : ℝ) (hk : 0 < k) :
    (⟨0, k * a, k * b, k * c⟩ : Quaternion ℝ).normalize Real.sqrt
      = (⟨0, a, b, c⟩ : Quaternion ℝ).normalize Real.sqrt := by
  unfold Quaternion.normalize
  rw [Quaternion.norm_vec_scale k a b c hk]
  by_cases h : (⟨0, a, b, c⟩ : Quaternion ℝ).norm Real.sqrt = 0
  · simp [h]
  · simp [h, hk.ne', mul_div_mul_left]

/-- C2 (failing input). At the unit orientation `(1,0,0,0)` with period `0.01`, gain `0.1`,
zero gyro, accelerometer `(0,0,1)` and magnetometer `(1,0,0)` (both non-zero), the
objective vector vanishes, the correction step `transpose(J) * F` is the zero quaternion,
and `Madgwick::update` normalizes it: the call has no defined result, so no quaternion of
norm one is stored. -/
theorem update_unit_norm_undefined_at_fixed_point :
    (Quaternion.identity : Quaternion ℝ).norm Real.sqrt = 1
      ∧ (0 : ℝ) < 1 / 100 ∧ (0 : ℝ) ≤ 1 / 10
      ∧ (⟨0, 0, 0, 1⟩ : Quaternion ℝ).norm Real.sqrt ≠ 0
      ∧ (⟨0, 1, 0, 0⟩ : Quaternion ℝ).norm Real.sqrt ≠ 0
      ∧ (Madgwick.mk (Quaternion.identity : Quaternion ℝ) (1 / 100) (1 / 10)).update
          Real.sqrt 0 0 0 0 0 1 1 0 0 = none := by
  refine ⟨?_, by norm_num, by norm_num, ?_, ?_, ?_⟩
  · simp [Quaternion.norm, Quaternion.normSq, Quaternion.identity]
  · simp [Quaternion.norm, Quaternion.normSq]
  · simp [Quaternion.norm, Quaternion.normSq]
  · simp [Madgwick.update, Quaternion.norm, Quaternion.normSq, Quaternion.normalize,
      Quaternion.identity, Quaternion.conjugate, Quaternion.ofVect, transpose_mulVec_apply,
      compute_F_entries, compute_J_entries]

/-- C5. Only the direction of the accelerometer and magnetometer readings matters:
scaling the accelerometer by `k1 > 0` and the magnetometer by `k2 > 0` does not change
the outcome of `Madgwick::update`. -/
theorem update_scale_invariant (m : Madgwick ℝ) (gx gy gz ax ay az mx my mz k1 k2 : ℝ)
    (hk1 : 0 < k1) (hk2 : 0 < k2) :
    m.update Real.sqrt gx gy gz (k1 * ax) (k1 * ay) (k1 * az) (k2 * mx) (k2 * my) (k2 * mz)
      = m.update Real.sqrt gx gy gz ax ay az mx my mz := by
  unfold Madgwick.update
  simp only [Quaternion.normalize_vec_scale k1 ax ay az hk1,
    Quaternion.normalize_vec_scale k2 mx my mz hk2,
    Quaternion.norm_vec_scale k1 ax ay az hk1, Quaternion.norm_vec_scale k2 mx my mz hk2,
    ne_eq, mul_eq_zero, hk1.ne', hk2.ne', false_or]

/-- Witness of C5: accelerometer `(0,3,4)` scaled by 2 and magnetometer `(1,0,0)` scaled
by 3, from the identity orientation. -/
theorem update_scale_invariant_witness :
    (0 : ℝ) < 2 ∧ (0 : ℝ) < 3
      ∧ (Madgwick.new (1 / 100 : ℝ) (1 / 10)).update Real.sqrt 0 0 0
          (2 * 0) (2 * 3) (2 * 4) (3 * 1) (3 * 0) (3 * 0)
        = (Madgwick.new (1 / 100 : ℝ) (1 / 10)).update Real.sqrt 0 0 0 0 3 4 1 0 0 :=
  ⟨by norm_num, by norm_num,
    update_scale_invariant (Madgwick.new (1 / 100) (1 / 10)) 0 0 0 0 3 4 1 0 0 2 3
      (by norm_num) (by norm_num)⟩

/-- C6 (failing input). With gain `0`, orientation `(1,0,0,0)`, period `0.01`, zero gyro,
accelerometer `(0,0,1)` and magnetometer `(1,0,0)`, pure gyro integration
`normalize(q + 0.5 * period * (q * gyr))` is the identity quaternion, but
`Madgwick::update` has no defined result: the zero correction step is normalized before
it is multiplied by the gain.  With accelerometer `(0,1,0)` instead, the call does store
the identity quaternion, so the outcome depends on the accelerometer. -/
theorem update_gain_zero_undefined_at_fixed_point :
    ((Quaternion.identity : Quaternion ℝ)
        + (((Quaternion.identity : Quaternion ℝ) * ⟨0, 0, 0, 0⟩).scale (1 / 2)).scale
            (1 / 100)).normalize Real.sqrt = some Quaternion.identity
      ∧ (Madgwick.mk (Quaternion.identity : Quaternion ℝ) (1 / 100) 0).update
          Real.sqrt 0 0 0 0 0 1 1 0 0 = none
      ∧ (Madgwick.mk (Quaternion.identity : Quaternion ℝ) (1 / 100) 0).update
          Real.sqrt 0 0 0 0 1 0 1 0 0
        = some (Madgwick.mk (Quaternion.identity : Quaternion ℝ) (1 / 100) 0) := by
  refine ⟨?_, ?_, ?_⟩
  · simp [Quaternion.norm, Quaternion.normSq, Quaternion.normalize, Quaternion.identity,
      Quaternion.scale]
  · simp [Madgwick.update, Quaternion.norm, Quaternion.normSq, Quaternion.normalize,
      Quaternion.identity, Quaternion.conjugate, Quaternion.ofVect, transpose_mulVec_apply,
      compute_F_entries, compute_J_entries]
  · simp [Madgwick.update, Quaternion.norm, Quaternion.normSq, Quaternion.normalize,
      Quaternion.identity, Quaternion.conjugate, Quaternion.ofVect, transpose_mulVec_apply,
      compute_F_entries, compute_J_entries, Quaternion.scale]

/-- C7 (failing input). In the convergence scenario (identity orientation, gain `0.1`,
period `0.01`, zero gyro, accelerometer `(0,0,-1)`, magnetometer `(1,0,0)`) the
correction step `transpose(J) * F` of the first call is the zero quaternion and is
normalized: already one call, and so every positive number of calls, has no defined
result instead of the identity quaternion. -/
theorem updateN_convergence_scenario_undefined (n : Nat) :
    (Madgwick.new (1 / 100 : ℝ) (1 / 10)).updateN Real.sqrt 0 0 0 0 0 (-1) 1 0 0 (n + 1)
      = none := by
  simp [Madgwick.updateN, Madgwick.new, Madgwick.update, Quaternion.norm,
    Quaternion.normSq, Quaternion.normalize,
    Quaternion.identity, Quaternion.conjugate, Quaternion.ofVect, transpose_mulVec_apply,
    compute_F_entries, compute_J_entries]

/-- Truncation of a non-negative value is its floor. -/
theorem trunc_of_nonneg (f : ℚ) (h : 0 ≤ f) : trunc f = ⌊f⌋ := by
  simp [trunc, h]

/-- An integer is its own rounding. -/
theorem roundHalfEven_intCast (n : ℤ) : roundHalfEven (n : ℚ) = n := by
  unfold roundHalfEven
  simp

/-- Rounding a non-negative value gives a non-negative integer. -/
theorem roundHalfEven_nonneg (x : ℚ) (h : 0 ≤ x) : 0 ≤ roundHalfEven x := by
  have hf : 0 ≤ ⌊x⌋ := Int.floor_nonneg.mpr h
  unfold roundHalfEven
  split_ifs <;> omega

/-- Rounding does not step over an integer above the value. -/
theorem roundHalfEven_le_intCast (x : ℚ) (n : ℤ) (h : x ≤ n) : roundHalfEven x ≤ n := by
  have hf : ⌊x⌋ ≤ n := Int.floor_le_iff.mpr (by linarith)
  have hfx : (⌊x⌋ : ℚ) ≤ x := Int.floor_le x
  by_cases hlt : ⌊x⌋ < n
  · unfold roundHalfEven
    split_ifs <;> omega
  · have heq : ⌊x⌋ = n := le_antisymm hf (not_lt.mp hlt)
    have hx : x = n := le_antisymm h (by rw [← heq]; exact hfx)
    rw [hx, roundHalfEven_intCast]

/-- Above the midpoint of two consecutive integers the rounding is the upper one. -/
theorem roundHalfEven_of_gt_half (x : ℚ) (n : ℤ) (h1 : (n : ℚ) + 1 / 2 < x)
    (h2 : x < (n : ℚ) + 1) : roundHalfEven x = n + 1 := by
  have hf : ⌊x⌋ = n := Int.floor_eq_iff.mpr ⟨by linarith, h2⟩
  unfold roundHalfEven
  rw [hf]
  have hn : ¬ (x - (n : ℚ) < 1 / 2) := by linarith
  rw [if_neg hn, if_pos (by linarith)]

/-- The binary exponent of a positive rational is fixed by the binade it lies in. -/
theorem log_two_eq (x : ℚ) (e : ℤ) (h1 : (2 : ℚ) ^ e ≤ x) (h2 : x < (2 : ℚ) ^ (e + 1)) :
    Int.log 2 x = e := by
  have hx : 0 < x := lt_of_lt_of_le (zpow_pos (by norm_num) e) h1
  have ha : e ≤ Int.log 2 x :=
    (Int.zpow_le_iff_le_log (by norm_num) hx).mp (by simpa using h1)
  have hb : Int.log 2 x < e + 1 :=
    (Int.lt_zpow_iff_log_lt (by norm_num) hx).mp (by simpa using h2)
  omega

/-- The spacing of the `float` values in a normal binade. -/
theorem ulp32_of_binade (x : ℚ) (e : ℤ) (he : -126 ≤ e) (h1 : (2 : ℚ) ^ e ≤ x)
    (h2 : x < (2 : ℚ) ^ (e + 1)) : ulp32 x = (2 : ℚ) ^ (e - 23) := by
  have hx : 0 < x := lt_of_lt_of_le (zpow_pos (by norm_num) e) h1
  unfold ulp32
  rw [abs_of_pos hx, log_two_eq x e h1 h2, max_eq_left he]

/-- The spacing is positive. -/
theorem ulp32_pos (x : ℚ) : 0 < ulp32 x :=
  zpow_pos (by norm_num) _

/-- A value that is an integer multiple of the spacing of its binade, and finite, is a
`float`: rounding returns it unchanged. -/
theorem roundF32_of_exact (x : ℚ) (e n : ℤ) (he : -126 ≤ e) (h1 : (2 : ℚ) ^ e ≤ x)
    (h2 : x < (2 : ℚ) ^ (e + 1)) (hn : x = n * (2 : ℚ) ^ (e - 23)) (hfin : x < 2 ^ 128) :
    roundF32 x = some x := by
  have hx : 0 < x := lt_of_lt_of_le (zpow_pos (by norm_num) e) h1
  have hu : ulp32 x = (2 : ℚ) ^ (e - 23) := ulp32_of_binade x e he h1 h2
  have hup : (0 : ℚ) < (2 : ℚ) ^ (e - 23) := zpow_pos (by norm_num) _
  have hq : x / (2 : ℚ) ^ (e - 23) = n := by
    rw [hn, mul_div_assoc, div_self hup.ne', mul_one]
  unfold roundF32
  simp only [hu, hq, roundHalfEven_intCast, ← hn]
  rw [if_pos (by rw [abs_of_pos hx]; exact hfin)]

/-- In the range of the motor mapping the spacing of the `float` values divides `1000`. -/
theorem ulp32_dvd_thousand (x : ℚ) (h0 : 0 ≤ x) (h1 : x ≤ 1000) :
    ∃ N : ℤ, (N : ℚ) * ulp32 x = 1000 := by
  have hlog : Int.log 2 |x| ≤ 9 := by
    rcases h0.eq_or_lt with h | h
    · rw [← h, abs_zero, Int.log_zero_right]
      norm_num
    · rw [abs_of_pos h]
      have hlt : x < ((2 : ℕ) : ℚ) ^ (10 : ℤ) := by
        norm_num
        linarith
      have := (Int.lt_zpow_iff_log_lt (by norm_num) h).mp hlt
      omega
  obtain ⟨n, hn⟩ : ∃ n : ℕ, max (Int.log 2 |x|) (-126) - 23 = -(n : ℤ) :=
    ⟨(-(max (Int.log 2 |x|) (-126) - 23)).toNat, by
      have : max (Int.log 2 |x|) (-126) ≤ 9 := max_le hlog (by norm_num)
      omega⟩
  refine ⟨1000 * 2 ^ n, ?_⟩
  unfold ulp32
  rw [hn, zpow_neg, zpow_natCast]
  push_cast
  have h2 : ((2 : ℚ) ^ n) ≠ 0 := pow_ne_zero _ (by norm_num)
  field_simp

/-- In the range of the motor mapping a `float` product is finite and stays in the
range. -/
theorem roundF32_range (x : ℚ) (h0 : 0 ≤ x) (h1 : x ≤ 1000) :
    ∃ p : ℚ, roundF32 x = some p ∧ 0 ≤ p ∧ p ≤ 1000 := by
  obtain ⟨N, hN⟩ := ulp32_dvd_thousand x h0 h1
  have hu := ulp32_pos x
  have hq0 : 0 ≤ x / ulp32 x := div_nonneg h0 hu.le
  have hqN : x / ulp32 x ≤ N := by
    rw [div_le_iff₀ hu, hN]
    exact h1
  have hr0 : (0 : ℚ) ≤ roundHalfEven (x / ulp32 x) := by
    exact_mod_cast roundHalfEven_nonneg _ hq0
  have hrN : (roundHalfEven (x / ulp32 x) : ℚ) ≤ N := by
    exact_mod_cast roundHalfEven_le_intCast _ N hqN
  have hp0 : 0 ≤ (roundHalfEven (x / ulp32 x) : ℚ) * ulp32 x := mul_nonneg hr0 hu.le
  have hp1 : (roundHalfEven (x / ulp32 x) : ℚ) * ulp32 x ≤ 1000 := by
    rw [← hN]
    exact mul_le_mul_of_nonneg_right hrN hu.le
  refine ⟨(roundHalfEven (x / ulp32 x) : ℚ) * ulp32 x, ?_, hp0, hp1⟩
  unfold roundF32
  simp only
  rw [if_pos]
  rw [abs_of_nonneg hp0]
  calc (roundHalfEven (x / ulp32 x) : ℚ) * ulp32 x ≤ 1000 := hp1
    _ < 2 ^ 128 := by norm_num

/-- The `float` conversion of the range `1000` is exact. -/
theorem roundF32_thousand : roundF32 1000 = some 1000 :=
  roundF32_of_exact 1000 9 16384000 (by norm_num) (by norm_num) (by norm_num)
    (by norm_num) (by norm_num)

/-- The `float` conversion of zero is zero. -/
theorem roundF32_zero : roundF32 0 = some 0 := by
  unfold roundF32
  simp [roundHalfEven]

/-- What `Motor::set_speed` sets once the `float` product `p` of the speed and the range
is known to lie in `[0, 1000]`. -/
theorem set_speed_of_product (m : Motor) (s p : ℚ) (hp : roundF32 (s * 1000) = some p)
    (h0 : 0 ≤ p) (h1 : p ≤ 1000) :
    m.set_speed s = some { pulse := { width := 1000 + trunc p } }
      ∧ 0 ≤ trunc p ∧ trunc p ≤ 1000 := by
  have hlo : 0 ≤ trunc p := by
    rw [trunc_of_nonneg _ h0]
    exact Int.floor_nonneg.mpr h0
  have hhi : trunc p ≤ 1000 := by
    rw [trunc_of_nonneg _ h0]
    have hlt : p < ((1001 : ℤ) : ℚ) := by
      push_cast
      linarith
    have := Int.floor_lt.mpr hlt
    omega
  refine ⟨?_, hlo, hhi⟩
  have hc : ((PULSE_MAX_VALUE_us - PULSE_MIN_VALUE_us : Int) : ℚ) = 1000 := by
    norm_num [PULSE_MAX_VALUE_us, PULSE_MIN_VALUE_us]
  have hu : toUInt16 p = some (trunc p) := by
    unfold toUInt16
    rw [if_pos ⟨hlo, by omega⟩]
  have hmod : (trunc p + 1000) % 65536 = 1000 + trunc p := by
    rw [Int.emod_eq_of_lt (by omega) (by omega)]
    ring
  unfold Motor.set_speed
  rw [hc, roundF32_thousand, Option.some_bind, hp, Option.some_bind, hu]
  simp only [Option.map_some', PULSE_MIN_VALUE_us, Pulse.set, hmod]

/-- C8 (amended). Motor speed mapping: for a normalized speed `0 ≤ s ≤ 1`, the `float`
product of `s` and the range `1000` is a finite `p`, and `Motor::set_speed` sets the pulse
width `1000 + trunc(p)`, which lies in `[1000, 2000]`; speed `0` gives the width `1000`
that `Motor::set_zero` sets, and speed `1` gives `2000`. -/
theorem set_speed_width_rounded (m : Motor) (s : ℚ) (h0 : 0 ≤ s) (h1 : s ≤ 1) :
    (∃ p : ℚ, roundF32 (s * 1000) = some p
        ∧ m.set_speed s = some { pulse := { width := 1000 + trunc p } }
        ∧ 1000 ≤ 1000 + trunc p ∧ 1000 + trunc p ≤ 2000)
      ∧ (m.set_speed 0 = some m.set_zero ∧ m.set_zero.pulse.width = 1000)
      ∧ m.set_speed 1 = some { pulse := { width := 2000 } } := by
  refine ⟨?_, ?_, ?_⟩
  · obtain ⟨p, hp, hp0, hp1⟩ := roundF32_range (s * 1000) (by positivity) (by linarith)
    obtain ⟨h, hlo, hhi⟩ := set_speed_of_product m s p hp hp0 hp1
    exact ⟨p, hp, h, by omega, by omega⟩
  · have hp : roundF32 ((0 : ℚ) * 1000) = some 0 := by
      rw [zero_mul]
      exact roundF32_zero
    have h := (set_speed_of_product m 0 0 hp le_rfl (by norm_num)).1
    have hz : trunc (0 : ℚ) = 0 := by simp [trunc]
    rw [hz] at h
    exact ⟨by rw [h]; simp [Motor.set_zero, Pulse.set, PULSE_MIN_VALUE_us],
      by simp [Motor.set_zero, Pulse.set, PULSE_MIN_VALUE_us]⟩
  · have hp : roundF32 ((1 : ℚ) * 1000) = some 1000 := by
      rw [one_mul]
      exact roundF32_thousand
    have h := (set_speed_of_product m 1 1000 hp (by norm_num) le_rfl).1
    have ho : trunc (1000 : ℚ) = 1000 := by
      rw [trunc_of_nonneg _ (by norm_num)]
      have : (1000 : ℚ) = ((1000 : ℤ) : ℚ) := by norm_num
      rw [this, Int.floor_intCast]
    rw [ho] at h
    rw [h]
    norm_num

/-- Witness of C8 at half speed: the `float` product is `500` and the width set is 1500
microseconds. -/
theorem set_speed_width_rounded_witness :
    (0 : ℚ) ≤ 1 / 2 ∧ (1 / 2 : ℚ) ≤ 1
      ∧ (Motor.mk (Pulse.mk 1000)).set_speed (1 / 2)
        = some { pulse := { width := 1500 } } := by
  obtain ⟨p, hp, h, -, -⟩ :=
    (set_speed_width_rounded (Motor.mk (Pulse.mk 1000)) (1 / 2) (by norm_num) (by norm_num)).1
  have h500 : roundF32 ((1 / 2 : ℚ) * 1000) = some 500 := by
    have : ((1 / 2 : ℚ) * 1000) = 500 := by norm_num
    rw [this]
    exact roundF32_of_exact 500 8 16384000 (by norm_num) (by norm_num) (by norm_num)
      (by norm_num) (by norm_num)
  rw [h500] at hp
  have hp' : p = 500 := (Option.some.inj hp).symm
  rw [hp'] at h
  have ht : trunc (500 : ℚ) = 500 := by
    rw [trunc_of_nonneg _ (by norm_num)]
    have : (500 : ℚ) = ((500 : ℤ) : ℚ) := by norm_num
    rw [this, Int.floor_intCast]
  rw [ht] at h
  exact ⟨by norm_num, by norm_num, h⟩

/-- C8 (counterexample). The speed `5368709 / 2^30` is the `float` nearest to `0.005`
and lies in `[0, 1]`.  Its exact product with `1000` is just below `5`, so
`1000 + trunc(s * 1000) = 1004`; the `float` product rounds to `5`, and
`Motor::set_speed` sets the width `1005`. -/
theorem set_speed_width_exact_counterexample :
    ((0 : ℚ) ≤ 5368709 / 1073741824 ∧ (5368709 / 1073741824 : ℚ) ≤ 1
        ∧ roundF32 (5368709 / 1073741824) = some (5368709 / 1073741824))
      ∧ 1000 + trunc ((5368709 / 1073741824 : ℚ) * 1000) = 1004
      ∧ (Motor.mk (Pulse.mk 1000)).set_speed (5368709 / 1073741824)
          = some { pulse := { width := 1005 } }
      ∧ (Motor.mk (Pulse.mk 1000)).set_speed (5368709 / 1073741824)
          ≠ some { pulse := { width := 1000 + trunc ((5368709 / 1073741824 : ℚ) * 1000) } } := by
  have hrep : roundF32 (5368709 / 1073741824) = some (5368709 / 1073741824) :=
    roundF32_of_exact _ (-8) 10737418 (by norm_num) (by norm_num) (by norm_num)
      (by norm_num) (by norm_num)
  have hexact : trunc ((5368709 / 1073741824 : ℚ) * 1000) = 4 := by
    rw [trunc_of_nonneg _ (by norm_num)]
    exact Int.floor_eq_iff.mpr ⟨by norm_num, by norm_num⟩
  have hprod : roundF32 ((5368709 / 1073741824 : ℚ) * 1000) = some 5 := by
    have hu : ulp32 ((5368709 / 1073741824 : ℚ) * 1000) = (2 : ℚ) ^ ((2 : ℤ) - 23) :=
      ulp32_of_binade _ 2 (by norm_num) (by norm_num) (by norm_num)
    have hr : roundHalfEven ((5368709 / 1073741824 : ℚ) * 1000 / (2 : ℚ) ^ ((2 : ℤ) - 23))
        = 10485759 + 1 :=
      roundHalfEven_of_gt_half _ 10485759 (by norm_num) (by norm_num)
    unfold roundF32
    simp only [hu, hr]
    norm_num
  have hset := (set_speed_of_product (Motor.mk (Pulse.mk 1000)) (5368709 / 1073741824) 5
    hprod (by norm_num) (by norm_num)).1
  have ht : trunc (5 : ℚ) = 5 := by
    rw [trunc_of_nonneg _ (by norm_num)]
    have : (5 : ℚ) = ((5 : ℤ) : ℚ) := by norm_num
    rw [this, Int.floor_intCast]
  rw [ht] at hset
  refine ⟨⟨by norm_num, by norm_num, hrep⟩, by rw [hexact]; norm_num, hset, ?_⟩
  rw [hset, hexact]
  decide

/-- C10. The objective vector is the rotated-reference residual: for a unit-norm `q` and
`B = (0,Bx,0,Bz)`, the first three cells of `Madgwick::compute_F` are the vector part of
`conjugate(q) * (0,0,0,1) * q` minus the accelerometer vector, and the last three are the
vector part of `conjugate(q) * (0,Bx,0,Bz) * q` minus the magnetometer vector. -/
theorem compute_F_rotated_residual (m : Madgwick ℝ) (acc mag : Quaternion ℝ) (Bx Bz : ℝ)
    (hq : m.q.norm Real.sqrt = 1) :
    (m.compute_F acc mag ⟨0, Bx, 0, Bz⟩ 0
          = (m.q.conjugate * (⟨0, 0, 0, 1⟩ : Quaternion ℝ) * m.q).get 1 - acc.get 1
      ∧ m.compute_F acc mag ⟨0, Bx, 0, Bz⟩ 1
          = (m.q.conjugate * (⟨0, 0, 0, 1⟩ : Quaternion ℝ) * m.q).get 2 - acc.get 2
      ∧ m.compute_F acc mag ⟨0, Bx, 0, Bz⟩ 2
          = (m.q.conjugate * (⟨0, 0, 0, 1⟩ : Quaternion ℝ) * m.q).get 3 - acc.get 3)
    ∧ (m.compute_F acc mag ⟨0, Bx, 0, Bz⟩ 3
          = (m.q.conjugate * (⟨0, Bx, 0, Bz⟩ : Quaternion ℝ) * m.q).get 1 - mag.get 1
      ∧ m.compute_F acc mag ⟨0, Bx, 0, Bz⟩ 4
          = (m.q.conjugate * (⟨0, Bx, 0, Bz⟩ : Quaternion ℝ) * m.q).get 2 - mag.get 2
      ∧ m.compute_F acc mag ⟨0, Bx, 0, Bz⟩ 5
          = (m.q.conjugate * (⟨0, Bx, 0, Bz⟩ : Quaternion ℝ) * m.q).get 3 - mag.get 3) := by
  have h := Quaternion.normSq_of_norm_eq_one m.q hq
  obtain ⟨⟨w, a, b, c⟩, T, β⟩ := m
  simp only [compute_F_entries, Quaternion.mul_def, Quaternion.conjugate,
    Quaternion.get_one, Quaternion.get_two, Quaternion.get_three] at h ⊢
  refine ⟨⟨?_, ?_, ?_⟩, ?_, ?_, ?_⟩
  · ring
  · ring
  · linear_combination (-1 : ℝ) * h
  · linear_combination (-Bx) * h
  · ring
  · linear_combination (-Bz) * h

/-- Witness of C10 at the unit orientation `(0,0,0,1)`, a half turn about the z axis,
with accelerometer `(0,0,1)`, magnetometer `(1,0,0)` and reference `(0,1,0,0)`. -/
theorem compute_F_rotated_residual_witness :
    (⟨0, 0, 0, 1⟩ : Quaternion ℝ).norm Real.sqrt = 1
      ∧ (Madgwick.mk (⟨0, 0, 0, 1⟩ : Quaternion ℝ) (1 / 100) (1 / 10)).compute_F
          ⟨0, 0, 0, 1⟩ ⟨0, 1, 0, 0⟩ ⟨0, 1, 0, 0⟩ 3
        = ((⟨0, 0, 0, 1⟩ : Quaternion ℝ).conjugate * (⟨0, 1, 0, 0⟩ : Quaternion ℝ)
            * ⟨0, 0, 0, 1⟩).get 1 - (⟨0, 1, 0, 0⟩ : Quaternion ℝ).get 1 :=
  ⟨by simp [Quaternion.norm, Quaternion.normSq],
    (compute_F_rotated_residual (Madgwick.mk ⟨0, 0, 0, 1⟩ (1 / 100) (1 / 10))
      ⟨0, 0, 0, 1⟩ ⟨0, 1, 0, 0⟩ 1 0 (by simp [Quaternion.norm, Quaternion.normSq])).2.1⟩

/-- The partial derivative of cell 2 of the objective with respect to `q2`. -/
theorem compute_F_two_hasDerivAt_q2 (q0 q1 q3 T β : ℝ) (acc mag B : Quaternion ℝ) (t : ℝ) :
    HasDerivAt (fun s : ℝ => (Madgwick.mk ⟨q0, q1, s, q3⟩ T β).compute_F acc mag B 2)
      (-4 * t) t := by
  simp only [compute_F_entries]
  have h := ((((hasDerivAt_id t).mul (hasDerivAt_id t)).const_sub (1 / 2 - q1 * q1)).const_mul
    (2 : ℝ)).sub_const acc.z
  simp only [id] at h
  convert h using 1
  ring

/-- C9 (failing input). At `q = (0,0,0,1)` and `B = (0,1,0,0)` the cell `J(2,2)` set by
`Madgwick::compute_J` is `2 * q3 = 2`, while the partial derivative with respect to `q2`
of cell 2 of `Madgwick::compute_F`, `2 * (0.5 - q1 * q1 - q2 * q2) - acc_z`, is
`-4 * q2 = 0`: row 2 of the Jacobian is not the gradient of the objective. -/
theorem compute_J_row_two_not_gradient :
    (Madgwick.mk (⟨0, 0, 0, 1⟩ : Quaternion ℝ) (1 / 100) (1 / 10)).compute_J ⟨0, 1, 0, 0⟩ 2 2
        = 2
      ∧ deriv (fun s : ℝ => (Madgwick.mk (⟨0, 0, s, 1⟩ : Quaternion ℝ) (1 / 100)
            (1 / 10)).compute_F ⟨0, 0, 0, 1⟩ ⟨0, 1, 0, 0⟩ ⟨0, 1, 0, 0⟩ 2) 0 = 0 := by
  refine ⟨by norm_num [compute_J_entries], ?_⟩
  have h := (compute_F_two_hasDerivAt_q2 0 0 1 (1 / 100) (1 / 10) ⟨0, 0, 0, 1⟩ ⟨0, 1, 0, 0⟩
    ⟨0, 1, 0, 0⟩ 0).deriv
  simpa using h

/-- A pure vector has zero norm only when its three components are zero. -/
theorem Quaternion.norm_vec_eq_zero_iff (a b c : ℝ) :
    (⟨0, a, b, c⟩ : Quaternion ℝ).norm Real.sqrt = 0 ↔ a = 0 ∧ b = 0 ∧ c = 0 := by
  simp only [Quaternion.norm, Quaternion.normSq]
  rw [Real.sqrt_eq_zero']
  constructor
  · intro h
    refine ⟨?_, ?_, ?_⟩ <;> nlinarith [mul_self_nonneg a, mul_self_nonneg b, mul_self_nonneg c]
  · rintro ⟨rfl, rfl, rfl⟩
    norm_num

/-- C11 (failing input). At the unit orientation `(1,0,0,0)` with period `0.01`, gain
`0.1`, accelerometer `(0,0,1)` and magnetometer `(1,0,0)`, the first two `normalize()`
calls of `Madgwick::update` are defined, but the third is applied to the correction step
`transpose(J) * F`, which is a quaternion of norm zero. -/
theorem update_step_norm_zero_at_fixed_point :
    (Quaternion.identity : Quaternion ℝ).norm Real.sqrt = 1
      ∧ (0 : ℝ) < 1 / 100 ∧ (0 : ℝ) ≤ 1 / 10
      ∧ (⟨0, 0, 0, 1⟩ : Quaternion ℝ).normalize Real.sqrt = some ⟨0, 0, 0, 1⟩
      ∧ (⟨0, 1, 0, 0⟩ : Quaternion ℝ).normalize Real.sqrt = some ⟨0, 1, 0, 0⟩
      ∧ ((Madgwick.mk (Quaternion.identity : Quaternion ℝ) (1 / 100) (1 / 10)).gradient
          Real.sqrt ⟨0, 0, 0, 1⟩ ⟨0, 1, 0, 0⟩).norm Real.sqrt = 0 := by
  refine ⟨?_, by norm_num, by norm_num, ?_, ?_, ?_⟩
  · simp [Quaternion.norm, Quaternion.normSq, Quaternion.identity]
  · simp [Quaternion.normalize, Quaternion.norm, Quaternion.normSq]
  · simp [Quaternion.normalize, Quaternion.norm, Quaternion.normSq]
  · simp [Madgwick.gradient, Madgwick.reference, Quaternion.norm, Quaternion.normSq,
      Quaternion.identity, Quaternion.conjugate, Quaternion.ofVect, transpose_mulVec_apply,
      compute_F_entries, compute_J_entries]

/-- Conjugating a pure vector by any quaternion leaves the scalar part zero. -/
theorem Quaternion.conj_rotate_w (q b : Quaternion ℝ) (hb : b.w = 0) :
    (q * (b * q.conjugate)).w = 0 := by
  obtain ⟨w, x, y, z⟩ := q
  obtain ⟨bw, bx, bY, bz⟩ := b
  simp only at hb
  subst hb
  simp only [Quaternion.mul_def, Quaternion.conjugate]
  ring

/-- The squared norm of `q * (b * conjugate(q))` is that of `b` times the squared norm of
`q`, twice. -/
theorem Quaternion.normSq_conj_rotate (q b : Quaternion ℝ) :
    (q * (b * q.conjugate)).normSq = q.normSq * q.normSq * b.normSq := by
  obtain ⟨w, x, y, z⟩ := q
  obtain ⟨bw, bx, bY, bz⟩ := b
  simp only [Quaternion.mul_def, Quaternion.conjugate, Quaternion.normSq]
  ring

/-- C13. The tilt-compensated magnetic reference is a unit vector in the x-z half-plane:
for a unit-norm `q` and a non-zero magnetometer reading, `normalize()` returns a
quaternion `b`, and with `H = q * (b * conjugate(q))` the reference `B` built in
`Madgwick::update` has scalar part `0`, y component `0`, x component `>= 0`, the z
component of `H`, and norm `1`, which is also the norm of `H`. -/
theorem reference_unit_half_plane (m : Madgwick ℝ) (mx my mz : ℝ)
    (hq : m.q.norm Real.sqrt = 1) (hmag : ¬ (mx = 0 ∧ my = 0 ∧ mz = 0)) :
    ∃ b : Quaternion ℝ, (⟨0, mx, my, mz⟩ : Quaternion ℝ).normalize Real.sqrt = some b
      ∧ (m.reference Real.sqrt b).w = 0
      ∧ (m.reference Real.sqrt b).y = 0
      ∧ 0 ≤ (m.reference Real.sqrt b).x
      ∧ (m.reference Real.sqrt b).z = (m.q * (b * m.q.conjugate)).z
      ∧ (m.reference Real.sqrt b).norm Real.sqrt = 1
      ∧ (m.q * (b * m.q.conjugate)).norm Real.sqrt = 1 := by
  have hn : (⟨0, mx, my, mz⟩ : Quaternion ℝ).norm Real.sqrt ≠ 0 := by
    rw [ne_eq, Quaternion.norm_vec_eq_zero_iff]
    exact hmag
  obtain ⟨b, hb⟩ := Option.ne_none_iff_exists'.mp
    (fun h => hn ((Quaternion.normalize_eq_none_iff Real.sqrt _).mp h))
  have hb1 : b.normSq = 1 :=
    Quaternion.normSq_of_norm_eq_one b (Quaternion.norm_of_normalize _ b hb)
  have hbw : b.w = 0 := by
    unfold Quaternion.normalize at hb
    rw [if_neg hn] at hb
    rw [← Option.some.inj hb]
    simp
  have hq1 : m.q.normSq = 1 := Quaternion.normSq_of_norm_eq_one m.q hq
  have hHw : (m.q * (b * m.q.conjugate)).w = 0 := Quaternion.conj_rotate_w m.q b hbw
  have hHn : (m.q * (b * m.q.conjugate)).normSq = 1 := by
    rw [Quaternion.normSq_conj_rotate, hq1, hb1]
    norm_num
  have hB : m.reference Real.sqrt b
      = ⟨0, Real.sqrt ((m.q * (b * m.q.conjugate)).x * (m.q * (b * m.q.conjugate)).x
          + (m.q * (b * m.q.conjugate)).y * (m.q * (b * m.q.conjugate)).y), 0,
          (m.q * (b * m.q.conjugate)).z⟩ := rfl
  refine ⟨b, hb, ?_⟩
  generalize m.q * (b * m.q.conjugate) = H at hHw hHn hB ⊢
  rw [hB]
  refine ⟨rfl, rfl, Real.sqrt_nonneg _, rfl, ?_, ?_⟩
  · have hxy : 0 ≤ H.x * H.x + H.y * H.y :=
      add_nonneg (mul_self_nonneg _) (mul_self_nonneg _)
    have hsum : H.x * H.x + H.y * H.y + H.z * H.z = 1 := by
      have h := hHn
      simp only [Quaternion.normSq, hHw] at h
      linarith
    simp only [Quaternion.norm, Quaternion.normSq]
    rw [Real.mul_self_sqrt hxy]
    have : (0 : ℝ) * 0 + (H.x * H.x + H.y * H.y) + 0 * 0 + H.z * H.z = 1 := by linarith
    rw [this, Real.sqrt_one]
  · simp only [Quaternion.norm, hHn, Real.sqrt_one]

/-- Witness of C13 at the identity orientation with magnetometer `(3,0,4)`. -/
theorem reference_unit_half_plane_witness :
    ∃ b : Quaternion ℝ, (⟨0, 3, 0, 4⟩ : Quaternion ℝ).normalize Real.sqrt = some b
      ∧ ((Madgwick.new (1 / 100 : ℝ) (1 / 10)).reference Real.sqrt b).w = 0
      ∧ ((Madgwick.new (1 / 100 : ℝ) (1 / 10)).reference Real.sqrt b).y = 0
      ∧ 0 ≤ ((Madgwick.new (1 / 100 : ℝ) (1 / 10)).reference Real.sqrt b).x
      ∧ ((Madgwick.new (1 / 100 : ℝ) (1 / 10)).reference Real.sqrt b).z
          = ((Madgwick.new (1 / 100 : ℝ) (1 / 10)).q
              * (b * (Madgwick.new (1 / 100 : ℝ) (1 / 10)).q.conjugate)).z
      ∧ ((Madgwick.new (1 / 100 : ℝ) (1 / 10)).reference Real.sqrt b).norm Real.sqrt = 1
      ∧ ((Madgwick.new (1 / 100 : ℝ) (1 / 10)).q
            * (b * (Madgwick.new (1 / 100 : ℝ) (1 / 10)).q.conjugate)).norm Real.sqrt = 1 :=
  reference_unit_half_plane (Madgwick.new (1 / 100) (1 / 10)) 3 0 4
    (by simp [Madgwick.new, Quaternion.identity, Quaternion.norm, Quaternion.normSq])
    (by norm_num)

/-- For a unit `q`, rotating back what was rotated returns the quaternion itself:
`conjugate(q) * ((q * (v * conjugate(q))) * q) = v`. -/
theorem Quaternion.conj_rotate_inverse (q v : Quaternion ℝ) (hq : q.normSq = 1) :
    q.conjugate * ((q * (v * q.conjugate)) * q) = v := by
  obtain ⟨w, x, y, z⟩ := q
  obtain ⟨vw, vx, vy, vz⟩ := v
  simp only [Quaternion.normSq] at hq
  simp only [Quaternion.mul_def, Quaternion.conjugate]
  ext
  · simp only
    linear_combination ((w * w + x * x + y * y + z * z + 1) * vw) * hq
  · simp only
    linear_combination ((w * w + x * x + y * y + z * z + 1) * vx) * hq
  · simp only
    linear_combination ((w * w + x * x + y * y + z * z + 1) * vy) * hq
  · simp only
    linear_combination ((w * w + x * x + y * y + z * z + 1) * vz) * hq

/-- For a unit `q`, the last three cells of the objective, rotated by `q`, are the
difference between the reference `B = (0,Bx,0,Bz)` and `H = q * (mag * conjugate(q))`. -/
theorem rotate_magnetic_residual (m : Madgwick ℝ) (acc : Quaternion ℝ) (mx my mz Bx Bz : ℝ)
    (hq : m.q.normSq = 1) :
    m.q * ((⟨0, m.compute_F acc ⟨0, mx, my, mz⟩ ⟨0, Bx, 0, Bz⟩ 3,
              m.compute_F acc ⟨0, mx, my, mz⟩ ⟨0, Bx, 0, Bz⟩ 4,
              m.compute_F acc ⟨0, mx, my, mz⟩ ⟨0, Bx, 0, Bz⟩ 5⟩ : Quaternion ℝ)
            * m.q.conjugate)
      = ⟨0, Bx - (m.q * ((⟨0, mx, my, mz⟩ : Quaternion ℝ) * m.q.conjugate)).x,
          -(m.q * ((⟨0, mx, my, mz⟩ : Quaternion ℝ) * m.q.conjugate)).y,
          Bz - (m.q * ((⟨0, mx, my, mz⟩ : Quaternion ℝ) * m.q.conjugate)).z⟩ := by
  obtain ⟨⟨w, x, y, z⟩, T, β⟩ := m
  simp only [Quaternion.normSq] at hq
  simp only [compute_F_entries, Quaternion.mul_def, Quaternion.conjugate]
  ext
  · simp only
    ring
  · simp only
    linear_combination ((w * w + x * x + y * y + z * z + 1) * Bx
      - ((w * w + x * x - y * y - z * z) * Bx + 2 * (x * z + w * y) * Bz)) * hq
  · simp only
    linear_combination (-(2 * (x * y + w * z) * Bx + 2 * (y * z - w * x) * Bz)) * hq
  · simp only
    linear_combination ((w * w + x * x + y * y + z * z + 1) * Bz
      - (2 * (x * z - w * y) * Bx + (w * w - x * x - y * y + z * z) * Bz)) * hq

/-- C14. When the magnetic residual vanishes: for a unit-norm `q` and a unit-norm
magnetometer vector `mag`, with `H = q * (mag * conjugate(q))` and the reference
`B = (0, sqrt(Hx^2 + Hy^2), 0, Hz)` of `Madgwick::update`, the last three cells of
`compute_F(acc, mag, B)` are all zero if and only if `Hy = 0` and `Hx >= 0`. -/
theorem magnetic_residual_zero_iff (m : Madgwick ℝ) (acc : Quaternion ℝ) (mx my mz : ℝ)
    (hq : m.q.norm Real.sqrt = 1)
    (_hmag : (⟨0, mx, my, mz⟩ : Quaternion ℝ).norm Real.sqrt = 1) :
    (m.compute_F acc ⟨0, mx, my, mz⟩ (m.reference Real.sqrt ⟨0, mx, my, mz⟩) 3 = 0
        ∧ m.compute_F acc ⟨0, mx, my, mz⟩ (m.reference Real.sqrt ⟨0, mx, my, mz⟩) 4 = 0
        ∧ m.compute_F acc ⟨0, mx, my, mz⟩ (m.reference Real.sqrt ⟨0, mx, my, mz⟩) 5 = 0)
      ↔ ((m.q * ((⟨0, mx, my, mz⟩ : Quaternion ℝ) * m.q.conjugate)).y = 0
        ∧ 0 ≤ (m.q * ((⟨0, mx, my, mz⟩ : Quaternion ℝ) * m.q.conjugate)).x) := by
  have hq1 : m.q.normSq = 1 := Quaternion.normSq_of_norm_eq_one m.q hq
  have hB : m.reference Real.sqrt ⟨0, mx, my, mz⟩
      = ⟨0, Real.sqrt ((m.q * ((⟨0, mx, my, mz⟩ : Quaternion ℝ) * m.q.conjugate)).x
            * (m.q * ((⟨0, mx, my, mz⟩ : Quaternion ℝ) * m.q.conjugate)).x
          + (m.q * ((⟨0, mx, my, mz⟩ : Quaternion ℝ) * m.q.conjugate)).y
            * (m.q * ((⟨0, mx, my, mz⟩ : Quaternion ℝ) * m.q.conjugate)).y), 0,
          (m.q * ((⟨0, mx, my, mz⟩ : Quaternion ℝ) * m.q.conjugate)).z⟩ := rfl
  rw [hB]
  have key := rotate_magnetic_residual m acc mx my mz
    (Real.sqrt ((m.q * ((⟨0, mx, my, mz⟩ : Quaternion ℝ) * m.q.conjugate)).x
            * (m.q * ((⟨0, mx, my, mz⟩ : Quaternion ℝ) * m.q.conjugate)).x
          + (m.q * ((⟨0, mx, my, mz⟩ : Quaternion ℝ) * m.q.conjugate)).y
            * (m.q * ((⟨0, mx, my, mz⟩ : Quaternion ℝ) * m.q.conjugate)).y))
    (m.q * ((⟨0, mx, my, mz⟩ : Quaternion ℝ) * m.q.conjugate)).z hq1
  have hzero : ∀ p : Quaternion ℝ, p * (⟨0, 0, 0, 0⟩ : Quaternion ℝ) = ⟨0, 0, 0, 0⟩ := by
    intro p
    ext <;> simp
  have hzero' : ∀ p : Quaternion ℝ, (⟨0, 0, 0, 0⟩ : Quaternion ℝ) * p = ⟨0, 0, 0, 0⟩ := by
    intro p
    ext <;> simp
  generalize m.q * ((⟨0, mx, my, mz⟩ : Quaternion ℝ) * m.q.conjugate) = H at key ⊢
  generalize m.compute_F acc ⟨0, mx, my, mz⟩
    ⟨0, Real.sqrt (H.x * H.x + H.y * H.y), 0, H.z⟩ = F at key ⊢
  constructor
  · rintro ⟨h3, h4, h5⟩
    rw [h3, h4, h5, hzero', hzero] at key
    have hx := congrArg Quaternion.x key
    have hy := congrArg Quaternion.y key
    simp only at hx hy
    refine ⟨by linarith, ?_⟩
    have hs : H.x = Real.sqrt (H.x * H.x + H.y * H.y) := by linarith
    rw [hs]
    exact Real.sqrt_nonneg _
  · rintro ⟨hy, hx⟩
    have hs : Real.sqrt (H.x * H.x + H.y * H.y) = H.x := by
      rw [hy, mul_zero, add_zero, Real.sqrt_mul_self hx]
    rw [hs, hy, sub_self, sub_self, neg_zero] at key
    have hinv := Quaternion.conj_rotate_inverse m.q ⟨0, F 3, F 4, F 5⟩ hq1
    rw [key, hzero', hzero] at hinv
    have h3 := congrArg Quaternion.x hinv
    have h4 := congrArg Quaternion.y hinv
    have h5 := congrArg Quaternion.z hinv
    simp only at h3 h4 h5
    exact ⟨h3.symm, h4.symm, h5.symm⟩

/-- Witness of C14 at the identity orientation with magnetometer `(1,0,0)`: there
`H = (0,1,0,0)`, so the magnetic residual vanishes. -/
theorem magnetic_residual_zero_iff_witness :
    ((Madgwick.new (1 / 100 : ℝ) (1 / 10)).compute_F ⟨0, 0, 0, 1⟩ ⟨0, 1, 0, 0⟩
          ((Madgwick.new (1 / 100 : ℝ) (1 / 10)).reference Real.sqrt ⟨0, 1, 0, 0⟩) 3 = 0
        ∧ (Madgwick.new (1 / 100 : ℝ) (1 / 10)).compute_F ⟨0, 0, 0, 1⟩ ⟨0, 1, 0, 0⟩
          ((Madgwick.new (1 / 100 : ℝ) (1 / 10)).reference Real.sqrt ⟨0, 1, 0, 0⟩) 4 = 0
        ∧ (Madgwick.new (1 / 100 : ℝ) (1 / 10)).compute_F ⟨0, 0, 0, 1⟩ ⟨0, 1, 0, 0⟩
          ((Madgwick.new (1 / 100 : ℝ) (1 / 10)).reference Real.sqrt ⟨0, 1, 0, 0⟩) 5 = 0)
      ∧ ((Madgwick.new (1 / 100 : ℝ) (1 / 10)).q
            * ((⟨0, 1, 0, 0⟩ : Quaternion ℝ)
              * (Madgwick.new (1 / 100 : ℝ) (1 / 10)).q.conjugate)).y = 0
      ∧ 0 ≤ ((Madgwick.new (1 / 100 : ℝ) (1 / 10)).q
            * ((⟨0, 1, 0, 0⟩ : Quaternion ℝ)
              * (Madgwick.new (1 / 100 : ℝ) (1 / 10)).q.conjugate)).x := by
  have h := magnetic_residual_zero_iff (Madgwick.new (1 / 100) (1 / 10)) ⟨0, 0, 0, 1⟩ 1 0 0
    (by simp [Madgwick.new, Quaternion.identity, Quaternion.norm, Quaternion.normSq])
    (by simp [Quaternion.norm, Quaternion.normSq])
  have hH : ((Madgwick.new (1 / 100 : ℝ) (1 / 10)).q
            * ((⟨0, 1, 0, 0⟩ : Quaternion ℝ)
              * (Madgwick.new (1 / 100 : ℝ) (1 / 10)).q.conjugate)).y = 0
      ∧ 0 ≤ ((Madgwick.new (1 / 100 : ℝ) (1 / 10)).q
            * ((⟨0, 1, 0, 0⟩ : Quaternion ℝ)
              * (Madgwick.new (1 / 100 : ℝ) (1 / 10)).q.conjugate)).x := by
    simp [Madgwick.new, Quaternion.identity, Quaternion.conjugate]
  exact ⟨h.mpr hH, hH⟩

/-- Triangle inequality for the quaternion norm. -/
theorem Quaternion.norm_add_le (u v : Quaternion ℝ) :
    (u + v).norm Real.sqrt ≤ u.norm Real.sqrt + v.norm Real.sqrt := by
  have hu := Quaternion.normSq_nonneg u
  have hv := Quaternion.normSq_nonneg v
  have hA : Real.sqrt u.normSq * Real.sqrt u.normSq = u.normSq := Real.mul_self_sqrt hu
  have hB : Real.sqrt v.normSq * Real.sqrt v.normSq = v.normSq := Real.mul_self_sqrt hv
  have hA0 : 0 ≤ Real.sqrt u.normSq := Real.sqrt_nonneg _
  have hB0 : 0 ≤ Real.sqrt v.normSq := Real.sqrt_nonneg _
  have hcs : (u.w * v.w + u.x * v.x + u.y * v.y + u.z * v.z) ^ 2
      ≤ u.normSq * v.normSq := by
    simp only [Quaternion.normSq]
    nlinarith [sq_nonneg (u.w * v.x - u.x * v.w), sq_nonneg (u.w * v.y - u.y * v.w),
      sq_nonneg (u.w * v.z - u.z * v.w), sq_nonneg (u.x * v.y - u.y * v.x),
      sq_nonneg (u.x * v.z - u.z * v.x), sq_nonneg (u.y * v.z - u.z * v.y)]
  have hin : u.w * v.w + u.x * v.x + u.y * v.y + u.z * v.z
      ≤ Real.sqrt u.normSq * Real.sqrt v.normSq := by
    by_contra hlt
    push_neg at hlt
    have h0 : 0 ≤ Real.sqrt u.normSq * Real.sqrt v.normSq := mul_nonneg hA0 hB0
    have h1 : (Real.sqrt u.normSq * Real.sqrt v.normSq) ^ 2 = u.normSq * v.normSq := by
      rw [mul_pow, sq, sq, hA, hB]
    nlinarith
  simp only [Quaternion.norm]
  rw [Real.sqrt_le_left (add_nonneg hA0 hB0)]
  have hexp : (u + v).normSq
      = u.normSq + 2 * (u.w * v.w + u.x * v.x + u.y * v.y + u.z * v.z) + v.normSq := by
    simp only [Quaternion.normSq, Quaternion.add_def]
    ring
  rw [hexp]
  nlinarith

/-- For a unit-norm `q`, period `> 0`, gain `>= 0` and a correction step `s` of norm at
most `1`, the quaternion `q + (0.5 * (q * gyr) - gain * s) * period` has norm at least
`1 - gain * period`. -/
theorem integrated_norm_ge (m : Madgwick ℝ) (gx gy gz : ℝ) (s : Quaternion ℝ)
    (hq : m.q.norm Real.sqrt = 1) (hT : 0 < m.period) (hβ : 0 ≤ m.beta)
    (hs : s.norm Real.sqrt ≤ 1) :
    1 - m.beta * m.period
        ≤ (m.q + ((m.q * ⟨0, gx, gy, gz⟩).scale (1 / 2) - s.scale m.beta).scale
            m.period).norm Real.sqrt := by
  have hq1 : m.q.normSq = 1 := Quaternion.normSq_of_norm_eq_one m.q hq
  have hsplit : (m.q + ((m.q * ⟨0, gx, gy, gz⟩).scale (1 / 2) - s.scale m.beta).scale
        m.period) + (s.scale m.beta).scale m.period
      = m.q + ((m.q * ⟨0, gx, gy, gz⟩).scale (1 / 2)).scale m.period := by
    ext <;> simp only [Quaternion.add_def, Quaternion.sub_def, Quaternion.scale] <;> ring
  have htri := Quaternion.norm_add_le
    (m.q + ((m.q * ⟨0, gx, gy, gz⟩).scale (1 / 2) - s.scale m.beta).scale m.period)
    ((s.scale m.beta).scale m.period)
  rw [hsplit] at htri
  have ha : 1 ≤ (m.q + ((m.q * ⟨0, gx, gy, gz⟩).scale (1 / 2)).scale m.period).norm
      Real.sqrt := by
    have hsq : (m.q + ((m.q * ⟨0, gx, gy, gz⟩).scale (1 / 2)).scale m.period).normSq
        = m.q.normSq * (1 + m.period ^ 2 * (gx ^ 2 + gy ^ 2 + gz ^ 2) / 4) := by
      simp only [Quaternion.normSq, Quaternion.add_def, Quaternion.mul_def, Quaternion.scale]
      ring
    simp only [Quaternion.norm]
    rw [Real.le_sqrt' one_pos, hsq, hq1]
    nlinarith [sq_nonneg (m.period * gx), sq_nonneg (m.period * gy),
      sq_nonneg (m.period * gz)]
  have hb : ((s.scale m.beta).scale m.period).norm Real.sqrt ≤ m.beta * m.period := by
    have hsq : ((s.scale m.beta).scale m.period).normSq
        = (m.beta * m.period) * (m.beta * m.period) * s.normSq := by
      simp only [Quaternion.normSq, Quaternion.scale]
      ring
    have hβT : 0 ≤ m.beta * m.period := mul_nonneg hβ hT.le
    simp only [Quaternion.norm] at hs ⊢
    rw [hsq, Real.sqrt_mul (mul_self_nonneg _), Real.sqrt_mul_self hβT]
    calc m.beta * m.period * Real.sqrt s.normSq ≤ m.beta * m.period * 1 :=
          mul_le_mul_of_nonneg_left hs hβT
      _ = m.beta * m.period := mul_one _
  linarith

/-- C12. The integration step cannot collapse to zero: for a unit-norm `q`, period `> 0`,
gain `>= 0`, any gyro reading and any correction step `s` of norm at most `1`, the
quaternion `q + (0.5 * (q * gyr) - gain * s) * period` that `Madgwick::update` normalizes
last has norm at least `1 - gain * period`; whenever `gain * period < 1` its norm is
not zero, `normalize()` is defined on it and the stored quaternion has norm `1`. -/
theorem integrated_norm_lower_bound (m : Madgwick ℝ) (gx gy gz : ℝ) (s : Quaternion ℝ)
    (hq : m.q.norm Real.sqrt = 1) (hT : 0 < m.period) (hβ : 0 ≤ m.beta)
    (hs : s.norm Real.sqrt ≤ 1) :
    1 - m.beta * m.period
        ≤ (m.q + ((m.q * ⟨0, gx, gy, gz⟩).scale (1 / 2) - s.scale m.beta).scale
            m.period).norm Real.sqrt
      ∧ (m.beta * m.period < 1 →
          (m.q + ((m.q * ⟨0, gx, gy, gz⟩).scale (1 / 2) - s.scale m.beta).scale
              m.period).norm Real.sqrt ≠ 0
          ∧ ∃ r : Quaternion ℝ,
              (m.q + ((m.q * ⟨0, gx, gy, gz⟩).scale (1 / 2) - s.scale m.beta).scale
                  m.period).normalize Real.sqrt = some r
              ∧ r.norm Real.sqrt = 1) := by
  have hlow := integrated_norm_ge m gx gy gz s hq hT hβ hs
  refine ⟨hlow, fun hlt => ?_⟩
  have hne : (m.q + ((m.q * ⟨0, gx, gy, gz⟩).scale (1 / 2) - s.scale m.beta).scale
      m.period).norm Real.sqrt ≠ 0 := by
    intro h0
    rw [h0] at hlow
    linarith
  obtain ⟨r, hr⟩ := Option.ne_none_iff_exists'.mp
    (fun h => hne ((Quaternion.normalize_eq_none_iff Real.sqrt _).mp h))
  exact ⟨hne, r, hr, Quaternion.norm_of_normalize _ r hr⟩

/-- Witness of C12 at the identity orientation with period `0.01`, gain `0.1`, gyro
`(1,2,3)` and the unit correction step `(0,1,0,0)`. -/
theorem integrated_norm_lower_bound_witness :
    (Quaternion.identity : Quaternion ℝ).norm Real.sqrt = 1
      ∧ (0 : ℝ) < 1 / 100 ∧ (0 : ℝ) ≤ 1 / 10
      ∧ (⟨0, 1, 0, 0⟩ : Quaternion ℝ).norm Real.sqrt ≤ 1
      ∧ 1 - (1 / 10 : ℝ) * (1 / 100)
        ≤ ((Quaternion.identity : Quaternion ℝ)
            + (((Quaternion.identity : Quaternion ℝ) * ⟨0, 1, 2, 3⟩).scale (1 / 2)
                - (⟨0, 1, 0, 0⟩ : Quaternion ℝ).scale (1 / 10)).scale (1 / 100)).norm
            Real.sqrt :=
  ⟨by simp [Quaternion.identity, Quaternion.norm, Quaternion.normSq], by norm_num,
    by norm_num, by simp [Quaternion.norm, Quaternion.normSq],
    (integrated_norm_lower_bound (Madgwick.mk Quaternion.identity (1 / 100) (1 / 10)) 1 2 3
      ⟨0, 1, 0, 0⟩
      (by simp [Quaternion.identity, Quaternion.norm, Quaternion.normSq])
      (by norm_num) (by norm_num)
      (by simp [Quaternion.norm, Quaternion.normSq])).1⟩

/-- With gain times period below `1`, a unit orientation and a correction step that can
be normalized, `Madgwick::update` stores a quaternion of norm one. -/
theorem update_defined_of_step (m : Madgwick ℝ) (gx gy gz ax ay az mx my mz : ℝ)
    (a b s : Quaternion ℝ) (hq : m.q.norm Real.sqrt = 1) (hT : 0 < m.period)
    (hβ : 0 ≤ m.beta) (hlt : m.beta * m.period < 1)
    (ha : (⟨0, ax, ay, az⟩ : Quaternion ℝ).normalize Real.sqrt = some a)
    (hb : (⟨0, mx, my, mz⟩ : Quaternion ℝ).normalize Real.sqrt = some b)
    (hs : (m.gradient Real.sqrt a b).normalize Real.sqrt = some s) :
    ∃ r : Madgwick ℝ, m.update Real.sqrt gx gy gz ax ay az mx my mz = some r
      ∧ r.q.norm Real.sqrt = 1 := by
  have hs1 : s.norm Real.sqrt ≤ 1 := (Quaternion.norm_of_normalize _ s hs).le
  have hlow := integrated_norm_ge m gx gy gz s hq hT hβ hs1
  have hne : (m.q + ((m.q * ⟨0, gx, gy, gz⟩).scale (1 / 2) - s.scale m.beta).scale
      m.period).norm Real.sqrt ≠ 0 := by
    intro h0
    rw [h0] at hlow
    linarith
  obtain ⟨q, hq'⟩ := Option.ne_none_iff_exists'.mp
    (fun h => hne ((Quaternion.normalize_eq_none_iff Real.sqrt _).mp h))
  have hq1 := Quaternion.norm_of_normalize _ q hq'
  refine ⟨{ m with q := q }, ?_, hq1⟩
  rw [update_of_normalize Real.sqrt m gx gy gz ax ay az mx my mz a b ha hb, hs]
  simp only [Option.some_bind, hq']

/-- A real function that is a polynomial of degree at most two, given through its values
at `0`, `1` and `-1`, has the derivative the coefficients give. -/
theorem hasDerivAt_of_quadratic (f : ℝ → ℝ) (x : ℝ)
    (hf : ∀ t, f t = ((f 1 + f (-1)) / 2 - f 0) * (t * t) + ((f 1 - f (-1)) / 2) * t + f 0) :
    HasDerivAt f (2 * ((f 1 + f (-1)) / 2 - f 0) * x + (f 1 - f (-1)) / 2) x := by
  have h := ((((hasDerivAt_id x).mul (hasDerivAt_id x)).const_mul
    ((f 1 + f (-1)) / 2 - f 0)).add ((hasDerivAt_id x).const_mul ((f 1 - f (-1)) / 2))).add_const
    (f 0)
  simp only [id] at h
  have hfun : f = fun t => ((f 1 + f (-1)) / 2 - f 0) * (t * t) + ((f 1 - f (-1)) / 2) * t
      + f 0 := funext hf
  rw [hfun]
  convert h using 1
  ring

/-- C15. Jacobian rows 0, 1, 3, 4 and 5: for every `q = (q0,q1,q2,q3)` and every
`B = (0,Bx,0,Bz)`, each cell `J(i,j)` with `i ≠ 2` set by `Madgwick::compute_J` is the
partial derivative with respect to `q_j` of cell `i` of `Madgwick::compute_F`, with
`acc`, `mag` and `B` held constant. -/
theorem compute_J_rows_gradient (q0 q1 q2 q3 T β Bx Bz : ℝ) (acc mag : Quaternion ℝ)
    (i : Fin 6) (hi : i ≠ 2) :
    HasDerivAt (fun t : ℝ => (Madgwick.mk ⟨t, q1, q2, q3⟩ T β).compute_F acc mag
        ⟨0, Bx, 0, Bz⟩ i)
        ((Madgwick.mk ⟨q0, q1, q2, q3⟩ T β).compute_J ⟨0, Bx, 0, Bz⟩ i 0) q0
      ∧ HasDerivAt (fun t : ℝ => (Madgwick.mk ⟨q0, t, q2, q3⟩ T β).compute_F acc mag
        ⟨0, Bx, 0, Bz⟩ i)
        ((Madgwick.mk ⟨q0, q1, q2, q3⟩ T β).compute_J ⟨0, Bx, 0, Bz⟩ i 1) q1
      ∧ HasDerivAt (fun t : ℝ => (Madgwick.mk ⟨q0, q1, t, q3⟩ T β).compute_F acc mag
        ⟨0, Bx, 0, Bz⟩ i)
        ((Madgwick.mk ⟨q0, q1, q2, q3⟩ T β).compute_J ⟨0, Bx, 0, Bz⟩ i 2) q2
      ∧ HasDerivAt (fun t : ℝ => (Madgwick.mk ⟨q0, q1, q2, t⟩ T β).compute_F acc mag
        ⟨0, Bx, 0, Bz⟩ i)
        ((Madgwick.mk ⟨q0, q1, q2, q3⟩ T β).compute_J ⟨0, Bx, 0, Bz⟩ i 3) q3 := by
  fin_cases i
  · refine ⟨?_, ?_, ?_, ?_⟩ <;> simp only [Fin.zero_eta, compute_F_entries, compute_J_entries]
      <;> exact (hasDerivAt_of_quadratic _ _ (fun t => by ring)).congr_deriv (by ring)
  · refine ⟨?_, ?_, ?_, ?_⟩ <;> simp only [Fin.mk_one, compute_F_entries, compute_J_entries]
      <;> exact (hasDerivAt_of_quadratic _ _ (fun t => by ring)).congr_deriv (by ring)
  · exact absurd rfl hi
  · refine ⟨?_, ?_, ?_, ?_⟩ <;> simp only [Fin.reduceFinMk, compute_F_entries, compute_J_entries]
      <;> exact (hasDerivAt_of_quadratic _ _ (fun t => by ring)).congr_deriv (by ring)
  · refine ⟨?_, ?_, ?_, ?_⟩ <;> simp only [Fin.reduceFinMk, compute_F_entries, compute_J_entries]
      <;> exact (hasDerivAt_of_quadratic _ _ (fun t => by ring)).congr_deriv (by ring)
  · refine ⟨?_, ?_, ?_, ?_⟩ <;> simp only [Fin.reduceFinMk, compute_F_entries, compute_J_entries]
      <;> exact (hasDerivAt_of_quadratic _ _ (fun t => by ring)).congr_deriv (by ring)

/-- Witness of C15: cell `J(3,2)` at `q = (1,0,2,0)` and `B = (0,1,0,0)`. -/
theorem compute_J_rows_gradient_witness :
    (3 : Fin 6) ≠ 2
      ∧ HasDerivAt (fun t : ℝ => (Madgwick.mk (⟨1, 0, t, 0⟩ : Quaternion ℝ) (1 / 100)
            (1 / 10)).compute_F ⟨0, 0, 0, 1⟩ ⟨0, 1, 0, 0⟩ ⟨0, 1, 0, 0⟩ 3)
          ((Madgwick.mk (⟨1, 0, 2, 0⟩ : Quaternion ℝ) (1 / 100) (1 / 10)).compute_J
            ⟨0, 1, 0, 0⟩ 3 2) 2 :=
  ⟨by decide,
    (compute_J_rows_gradient 1 0 2 0 (1 / 100) (1 / 10) 1 0 ⟨0, 0, 0, 1⟩ ⟨0, 1, 0, 0⟩ 3
      (by decide)).2.2.1⟩

/-- The objective vector is the `set` calls of `Madgwick::compute_F` applied to the
freshly constructed `Vect(6)`. -/
theorem compute_F_eq_on {α : Type} [Field α] [DecidableEq α]
    (m : Madgwick α) (acc mag B : Quaternion α) :
    m.compute_F acc mag B = m.compute_F_on acc mag B (Vect.new 6) := rfl

/-- The Jacobian is the `set` calls of `Madgwick::compute_J` applied to the freshly
constructed `Matrix(6, 4)`. -/
theorem compute_J_eq_on {α : Type} [Field α] [DecidableEq α]
    (m : Madgwick α) (B : Quaternion α) :
    m.compute_J B = m.compute_J_on B (Matrix.new 6 4) := rfl

/-- C16. Shape invariants: `Madgwick::compute_F` returns a vector of exactly 6 cells and
assigns every one of them (the result does not depend on what the constructor left in the
vector); `Madgwick::compute_J` returns a matrix of 6 rows of 4 cells and assigns every one
of the 24 (the result does not depend on what the constructor left in the matrix); so
`transpose(J) * F` is a vector of exactly 4 cells, cell `j` being the sum over the six
rows `i` of `J(i,j) * F(i)`. -/
theorem shape_invariants {α : Type} [Field α] [DecidableEq α]
    (m : Madgwick α) (acc mag B : Quaternion α) :
    ((List.ofFn (m.compute_F acc mag B)).length = 6
        ∧ ∀ F0 : Vect α 6, m.compute_F_on acc mag B F0 = m.compute_F acc mag B)
      ∧ ((List.ofFn fun i => List.ofFn (m.compute_J B i)).length = 6
        ∧ (∀ i : Fin 6, (List.ofFn (m.compute_J B i)).length = 4)
        ∧ ∀ J0 : Matrix α 6 4, m.compute_J_on B J0 = m.compute_J B)
      ∧ ((List.ofFn ((m.compute_J B).transpose.mulVec (m.compute_F acc mag B))).length = 4
        ∧ ∀ j : Fin 4, (m.compute_J B).transpose.mulVec (m.compute_F acc mag B) j
            = m.compute_J B 0 j * m.compute_F acc mag B 0
              + m.compute_J B 1 j * m.compute_F acc mag B 1
              + m.compute_J B 2 j * m.compute_F acc mag B 2
              + m.compute_J B 3 j * m.compute_F acc mag B 3
              + m.compute_J B 4 j * m.compute_F acc mag B 4
              + m.compute_J B 5 j * m.compute_F acc mag B 5) := by
  refine ⟨⟨List.length_ofFn _, ?_⟩, ⟨List.length_ofFn _, fun i => List.length_ofFn _, ?_⟩,
    ⟨List.length_ofFn _, fun j => transpose_mulVec_apply _ _ j⟩⟩
  · intro F0
    funext i
    fin_cases i <;> simp [Madgwick.compute_F_on, Madgwick.compute_F, Vect.set]
  · intro J0
    funext i j
    fin_cases i <;> fin_cases j <;>
      simp [Madgwick.compute_J_on, Madgwick.compute_J, Matrix.set]

end Quadcopter
